import Mathlib

set_option maxRecDepth 8000

/-!
Verification development for the transaction dependency engine of run-db
(`src/database.js`).  The `Database` class is shallowly embedded as pure
functions over a `Db` state value:

* the persistent SQLite tables (`tx`, `deps`, `spends`, `jig`, `berry`,
  `trust`, `ban`) become association lists,
* the in-memory structures (`trustlist`, `banlist`, `unexecuted`,
  `numQueuedForExecution`) become fields of the same state,
* event callbacks (`onReadyToExecute`, ...) are recorded in an event log,
  each tagged with whether an SQLite store transaction was open when the
  callback ran (`this.db.transaction(...)` nesting depth positive),
* `Date.now()` becomes an explicit `now` argument,
* `Run.util.metadata` (an external library call used only as a boolean
  classifier in `setTransactionExecutionFailed`) becomes an explicit
  function argument `rmo : String → Bool` (`rmo hex = true` iff
  `Run.util.metadata(hex)` does not throw),
* the unbounded JS recursions (`_checkExecutability`,
  `setTransactionExecutionFailed`, `deleteTransaction`,
  `unindexTransaction`, the BFS loop in `trust`) take an explicit fuel.

Each method body is written as a composition of small named step
functions, applied in the same order as the statements of the source.

In the source the adjacency sets `upstream` / `downstream` hold object
references; every node object is stored in the `unexecuted` map under its
own `txid` (both construction sites insert it that way), so the embedding
keys nodes by txid and represents adjacency as txid lists.  Where the
source would dereference an object that has already been dropped from the
map, the embedding looks the txid up and skips when absent; the theorems
below only ever evaluate the operations on states whose adjacency lists
reference live map entries, where the two readings agree.

Raw transaction bytes are represented by their lowercase hex string
(`bytes` column / `LOWER(HEX(bytes))` in `getTransactionHex`).
-/

/-- The callback slots of the `Database` class, as event constructors. -/
inductive DbEvent where
  | readyToExecute (txid : String)
  | addTx (txid : String)
  | deleteTx (txid : String)
  | trustTx (txid : String)
  | untrustTx (txid : String)
  | banTx (txid : String)
  | unbanTx (txid : String)
  | unindexTx (txid : String)
deriving Repr, DecidableEq

/-- One recorded callback invocation; `insideTxn` is true when a store
transaction was open at the moment the callback ran. -/
structure Emitted where
  ev : DbEvent
  insideTxn : Bool
deriving Repr, DecidableEq

/-- One row of the persistent `tx` table.  Integer 0/1 columns become
`Bool`, nullable columns become `Option`. -/
structure TxRecord where
  height : Option Int
  time : Option Int
  bytes : Option String
  hasCode : Bool
  executable : Bool
  executed : Bool
  indexed : Bool
deriving Repr, DecidableEq

/-- One row of the `jig` table (`class` is renamed `klass`, a reserved
word in Lean). -/
structure JigRow where
  state : String
  klass : Option String
  lock : Option String
  scripthash : Option String
deriving Repr, DecidableEq

/-- An in-memory node of the unexecuted graph (class `UnexecutedTx` in the
source).  `hasCode = none` models the initial JS `null`.  The `txid`
field of the source object always equals its map key, so it is dropped. -/
structure UnexecutedTx where
  downloaded : Bool
  hasCode : Option Bool
  queuedForExecution : Bool
  upstream : List String
  downstream : List String
deriving Repr, DecidableEq

/-- The `result` argument of `storeExecutedTransaction`. -/
structure ExecResult where
  cache : List (String × String)
  classes : List (String × String)
  locks : List (String × String)
  scripthashes : List (String × String)
deriving Repr, DecidableEq

/-- The whole database state: persistent tables plus in-memory state plus
the event log and the store-transaction nesting depth. -/
structure Db where
  txTable : List (String × TxRecord)
  deps : List (String × String)
  spends : List (String × Option String)
  jig : List (String × JigRow)
  berry : List (String × String)
  trustTable : List (String × Bool)
  banTable : List String
  trustlist : List String
  banlist : List String
  unexecuted : List (String × UnexecutedTx)
  numQueuedForExecution : Int
  events : List Emitted
  txDepth : Nat
deriving Repr, DecidableEq

/-- Lookup of the first binding of a key in an association list. -/
def alGet {α : Type} : List (String × α) → String → Option α
  | [], _ => none
  | (k, v) :: l, key => if k = key then some v else alGet l key

/-- Replace the first binding of the key, or append a new one
(JS `Map.set` / SQL `INSERT OR REPLACE`). -/
def alSet {α : Type} : List (String × α) → String → α → List (String × α)
  | [], key, v => [(key, v)]
  | (k, w) :: l, key, v => if k = key then (k, v) :: l else (k, w) :: alSet l key v

/-- Apply a function to the first binding of the key, if present. -/
def alUpd {α : Type} : List (String × α) → String → (α → α) → List (String × α)
  | [], _, _ => []
  | (k, w) :: l, key, f => if k = key then (k, f w) :: l else (k, w) :: alUpd l key f

/-- Remove the first binding of the key (JS `Map.delete` / SQL `DELETE`). -/
def alDel {α : Type} : List (String × α) → String → List (String × α)
  | [], _ => []
  | (k, w) :: l, key => if k = key then l else (k, w) :: alDel l key

/-- Insert a binding only when the key is absent (SQL `INSERT OR IGNORE`). -/
def alIns {α : Type} (l : List (String × α)) (key : String) (v : α) : List (String × α) :=
  if (alGet l key).isSome then l else l ++ [(key, v)]

/-- JS `Set.prototype.add` on a list kept in insertion order. -/
def addUnique (l : List String) (x : String) : List String :=
  if l.contains x then l else l ++ [x]

/-- JS truthiness of the tri-state `hasCode` field (`null` is falsy). -/
def truthy (o : Option Bool) : Bool := o.getD false

/-- Record a callback invocation, tagged with the transaction depth. -/
def emitEv (s : Db) (e : DbEvent) : Db :=
  { s with events := s.events ++ [⟨e, decide (0 < s.txDepth)⟩] }

/-- Run a body inside `this.db.transaction(...)`: depth is raised for the
body and restored afterwards (better-sqlite3 nests via savepoints). -/
def inTxn (f : Db → Db) (s : Db) : Db :=
  { f { s with txDepth := s.txDepth + 1 } with txDepth := s.txDepth }

/-- `hasTransactionStmt`: does a `tx` row exist for this txid. -/
def hasTransaction (s : Db) (txid : String) : Bool :=
  (alGet s.txTable txid).isSome

/-- `getTransactionHexStmt`: the stored bytes, as lowercase hex. -/
def getTransactionHex (s : Db) (txid : String) : Option String :=
  (alGet s.txTable txid).bind (·.bytes)

/-- `getTransactionTimeStmt` wrapped by `getTransactionTime`. -/
def getTransactionTime (s : Db) (txid : String) : Option Int :=
  (alGet s.txTable txid).bind (·.time)

/-- `getTransactionIndexedStmt(...).indexed` (the row is guaranteed to
exist at every call site, after `addNewTransaction`). -/
def indexedOf (s : Db) (txid : String) : Bool :=
  ((alGet s.txTable txid).map (·.indexed)).getD false

/-- Update one column of a `tx` row. -/
def updTx (s : Db) (txid : String) (f : TxRecord → TxRecord) : Db :=
  { s with txTable := alUpd s.txTable txid f }

/-- Apply a function to the node stored under a txid, if present
(mutation of the `UnexecutedTx` object held by the map in the source). -/
def updNode (s : Db) (txid : String) (f : UnexecutedTx → UnexecutedTx) : Db :=
  { s with unexecuted := alUpd s.unexecuted txid f }

/-- `this.unexecuted.delete(txid)`. -/
def delNode (s : Db) (txid : String) : Db :=
  { s with unexecuted := alDel s.unexecuted txid }

/-- The `queuedForExecution` flag the source reads through an upstream
object reference; the embedding reads it through the map (false when the
txid is not in the map, which the theorems below never exercise). -/
def flagOf (s : Db) (u : String) : Bool :=
  match alGet s.unexecuted u with
  | some n => n.queuedForExecution
  | none => false

/-- The queued flag of the node a txid is mapped to, if any. -/
def getQueued (s : Db) (t : String) : Option Bool :=
  (alGet s.unexecuted t).map (·.queuedForExecution)

/-- The readiness predicate computed by `_checkExecutability` (and stated
as `ready(n)` in the specification): downloaded, trusted when it carries
code, not banned, and all upstream neighbours already queued. -/
def readyB (s : Db) (txid : String) (n : UnexecutedTx) : Bool :=
  n.downloaded &&
  (!(truthy n.hasCode) || s.trustlist.contains txid) &&
  !(s.banlist.contains txid) &&
  n.upstream.all (flagOf s)

/-- The flag `_checkExecutability` decides to install: the override when
given, otherwise the recomputed readiness. -/
def forcedReady (force : Option Bool) (s : Db) (txid : String) (tx : UnexecutedTx) : Bool :=
  match force with
  | some b => b
  | none => readyB s txid tx

/-- The flag-and-counter update step of `_checkExecutability`. -/
def checkExecFlip (txid : String) (q : Bool) (s : Db) : Db :=
  { s with
    numQueuedForExecution := s.numQueuedForExecution + (if q then 1 else -1),
    unexecuted := alUpd s.unexecuted txid (fun n => { n with queuedForExecution := q }) }

/-- The ready-root emission of `_checkExecutability`: fire
`onReadyToExecute` when the upstream set is empty and the new flag is
true. -/
def maybeEmitReady (txid : String) (tx : UnexecutedTx) (q : Bool) (s : Db) : Db :=
  if tx.upstream.isEmpty && q then emitEv s (.readyToExecute txid) else s

/-- `_checkExecutability(tx, forceQueuedForExecution)` (lines 864-894).
Recomputes the flag (or installs `force`), adjusts
`numQueuedForExecution`, fires `onReadyToExecute` for a ready root, and
recurses into downstream neighbours when the flag changed. -/
def checkExecutability : Nat → String → Option Bool → Db → Db
  | 0, _, _, s => s
  | fuel + 1, txid, force, s =>
    match alGet s.unexecuted txid with
    | none => s
    | some tx =>
      if forcedReady force s txid tx = tx.queuedForExecution then s
      else
        tx.downstream.foldl (fun acc d => checkExecutability fuel d none acc)
          (maybeEmitReady txid tx (forcedReady force s txid tx)
            (checkExecFlip txid (forcedReady force s txid tx) s))

/-- The bare `tx` row inserted by `addNewTransactionStmt`.  The prepared
statement is `VALUES (?, ?, null, null, 0, 0, 0, 0)` over the columns
`(txid, height, time, bytes, has_code, executable, executed, indexed)`,
and the call site passes the computed receipt time as the second
parameter, so the receipt time lands in the `height` column and `time`
stays NULL. -/
def bareRow (now : Int) : TxRecord :=
  { height := some now, time := none, bytes := none, hasCode := false,
    executable := false, executed := false, indexed := false }

/-- `new UnexecutedTx(txid, false, null)` as built by
`addNewTransaction`. -/
def newNode : UnexecutedTx :=
  { downloaded := false, hasCode := none, queuedForExecution := false,
    upstream := [], downstream := [] }

/-- The map half of `addNewTransaction`: create the node unless one is
already present. -/
def addNodeIfAbsent (txid : String) (s : Db) : Db :=
  if (alGet s.unexecuted txid).isSome then s
  else { s with unexecuted := s.unexecuted ++ [(txid, newNode)] }

/-- `addNewTransaction(txid)` (lines 344-357). -/
def addNewTransaction (now : Int) (txid : String) (s : Db) : Db :=
  if hasTransaction s txid then s
  else addNodeIfAbsent txid
    (emitEv { s with txTable := alIns s.txTable txid (bareRow now) } (.addTx txid))

/-- `setSpendStmt` (`INSERT OR REPLACE INTO spends`). -/
def setSpend (s : Db) (location txid : String) : Db :=
  { s with spends := alSet s.spends location (some txid) }

/-- `setUnspentStmt` (`INSERT OR IGNORE INTO spends ... null`). -/
def setUnspent (s : Db) (location : String) : Db :=
  { s with spends := alIns s.spends location none }

/-- The spend and unspent-output recording shared by both parse-store
operations. -/
def storeSpends (txid : String) (inputs outputs : List String) (s : Db) : Db :=
  outputs.foldl (fun acc loc => setUnspent acc loc)
    (inputs.foldl (fun acc loc => setSpend acc loc txid) s)

/-- Detach a removed node from the upstream sets of its downstream
neighbours (`for (const downtx of tx.downstream) downtx.upstream.delete(tx)`). -/
def detachFromDownstream (txid : String) (downs : List String) (s : Db) : Db :=
  downs.foldl (fun acc d => updNode acc d (fun n => { n with upstream := n.upstream.erase txid })) s

/-- The notification loop shared by `storeExecutedTransaction` and the
non-cascading branch of `setTransactionExecutionFailed`: fire
`onReadyToExecute` for each downstream neighbour that is flagged and now
has an empty upstream set. -/
def notifyReadyRoots (downs : List String) (s : Db) : Db :=
  downs.foldl (fun acc d =>
    match alGet acc.unexecuted d with
    | some dn => if dn.queuedForExecution && dn.upstream.isEmpty then emitEv acc (.readyToExecute d) else acc
    | none => acc) s

/-- `if (tx.queuedForExecution) this.numQueuedForExecution--`. -/
def subCounter (b : Bool) (s : Db) : Db :=
  if b then { s with numQueuedForExecution := s.numQueuedForExecution - 1 } else s

/-- `storeParsedNonExecutableTransaction(txid, hex, inputs, outputs)`
(lines 367-391).  When the txid has no node in the map the source throws
a `TypeError` inside the store transaction, rolling everything back; the
embedding returns the input state in that case (the theorems below never
evaluate it there). -/
def storeParsedNonExecutableTransaction (fuel : Nat) (txid hex : String)
    (inputs outputs : List String) (s : Db) : Db :=
  match alGet s.unexecuted txid with
  | none => s
  | some tx =>
    inTxn (fun s0 =>
      tx.downstream.foldl (fun acc d => checkExecutability fuel d none acc)
        (detachFromDownstream txid tx.downstream
          (delNode
            (storeSpends txid inputs outputs
              (updTx (updTx s0 txid (fun r => { r with bytes := some hex }))
                txid (fun r => { r with executable := false })))
            txid))) s

/-- The best-effort code classifier of `setTransactionExecutionFailed`:
`Run.util.metadata(getTransactionHex(txid))` throws on `undefined`, so a
missing byte column classifies as non-executable. -/
def classifierSays (rmo : String → Bool) (s : Db) (txid : String) : Bool :=
  match getTransactionHex s txid with
  | some h => rmo h
  | none => false

/-- The cascade-or-notify tail of `setTransactionExecutionFailed`, with
the recursive call abstracted. -/
def failTail (rec : String → Db → Db) (rmo : String → Bool) (txid : String)
    (downs : List String) (s : Db) : Db :=
  if classifierSays rmo s txid then downs.foldl (fun acc d => rec d acc) s
  else notifyReadyRoots downs s

/-- `setTransactionExecutionFailed(txid)` (lines 479-515).  Marks the
record failed, drops the node, then either cascades the failure to the
downstream neighbours (when the stored bytes still parse as a Run
transaction, `rmo`) or merely notifies the ready roots among them. -/
def setTransactionExecutionFailed (rmo : String → Bool) : Nat → String → Db → Db
  | 0, _, s => s
  | fuel + 1, txid, s =>
    match alGet s.unexecuted txid with
    | none => s
    | some tx =>
      inTxn (fun s0 =>
        failTail (setTransactionExecutionFailed rmo fuel) rmo txid tx.downstream
          (subCounter tx.queuedForExecution
            (delNode
              (detachFromDownstream txid tx.downstream
                (updTx (updTx (updTx s0 txid (fun r => { r with executable := false }))
                  txid (fun r => { r with executed := true }))
                  txid (fun r => { r with indexed := false })))
              txid))) s

/-- `addDepStmt` (`INSERT OR IGNORE INTO deps (up, down)`). -/
def depIns (s : Db) (up down : String) : Db :=
  if s.deps.contains (up, down) then s else { s with deps := s.deps ++ [(up, down)] }

/-- The `addNewTransaction` plus edge insert shared by the dependency
loops. -/
def depStep (now : Int) (d txid : String) (s : Db) : Db :=
  depIns (addNewTransaction now d s) d txid

/-- Wire the in-memory edge pair between a dep and its dependent. -/
def addEdgePair (d txid : String) (s : Db) : Db :=
  updNode (updNode s d (fun n => { n with downstream := addUnique n.downstream txid }))
    txid (fun n => { n with upstream := addUnique n.upstream d })

/-- The dependency loop of `storeParsedExecutableTransaction`
(lines 408-423).  Returns the state and whether the early `return` after
`setTransactionExecutionFailed(txid)` was taken. -/
def parseExecDeps (rmo : String → Bool) (now : Int) (fuel : Nat) (txid : String) :
    List String → Db → Db × Bool
  | [], s => (s, false)
  | d :: rest, s =>
    match alGet (depStep now d txid s).unexecuted d with
    | some _ => parseExecDeps rmo now fuel txid rest (addEdgePair d txid (depStep now d txid s))
    | none =>
      if !(indexedOf (depStep now d txid s) d)
      then (setTransactionExecutionFailed rmo fuel txid (depStep now d txid s), true)
      else parseExecDeps rmo now fuel txid rest (depStep now d txid s)

/-- The tail of `storeParsedExecutableTransaction`: skip the final
readiness re-evaluation when the dependency loop returned early. -/
def finishParsedExec (fuel : Nat) (txid : String) (p : Db × Bool) : Db :=
  if p.2 then p.1 else checkExecutability fuel txid none p.1

/-- `storeParsedExecutableTransaction(txid, hex, hasCode, deps, inputs,
outputs)` (lines 393-427).  As above, the absent-node case throws in the
source and rolls back; the embedding returns the input state there. -/
def storeParsedExecutableTransaction (rmo : String → Bool) (now : Int) (fuel : Nat)
    (txid hex : String) (hasCode : Bool) (depsList inputs outputs : List String) (s : Db) : Db :=
  match alGet s.unexecuted txid with
  | none => s
  | some _ =>
    inTxn (fun s0 =>
      finishParsedExec fuel txid
        (parseExecDeps rmo now fuel txid depsList
          (updNode
            (storeSpends txid inputs outputs
              (updTx (updTx (updTx s0 txid (fun r => { r with bytes := some hex }))
                txid (fun r => { r with executable := true }))
                txid (fun r => { r with hasCode := hasCode })))
            txid (fun n => { n with hasCode := some hasCode, downloaded := true })))) s

/-- One `cache` entry of `storeExecutedTransaction`: `jig://` and
`berry://` keyed states are written, anything else is skipped. -/
def storeCacheEntry (acc : Db) (kv : String × String) : Db :=
  if kv.1.startsWith "jig://" then
    { acc with jig := alIns acc.jig (kv.1.drop 6) { state := kv.2, klass := none, lock := none, scripthash := none } }
  else if kv.1.startsWith "berry://" then
    { acc with berry := alIns acc.berry (kv.1.drop 8) kv.2 }
  else acc

/-- The jig annotation writes of `storeExecutedTransaction`. -/
def storeAnnotations (result : ExecResult) (s : Db) : Db :=
  result.scripthashes.foldl (fun acc lc => { acc with jig := alUpd acc.jig lc.1 (fun j => { j with scripthash := some lc.2 }) })
    (result.locks.foldl (fun acc lc => { acc with jig := alUpd acc.jig lc.1 (fun j => { j with lock := some lc.2 }) })
      (result.classes.foldl (fun acc lc => { acc with jig := alUpd acc.jig lc.1 (fun j => { j with klass := some lc.2 }) })
        (result.cache.foldl storeCacheEntry s)))

/-- `storeExecutedTransaction(txid, result)` (lines 429-477).  The guard
on map membership runs before the store transaction opens.  The webhook
call `submitToHook` is external I/O and not part of the state. -/
def storeExecutedTransaction (txid : String) (result : ExecResult) (s : Db) : Db :=
  match alGet s.unexecuted txid with
  | none => s
  | some tx =>
    inTxn (fun s0 =>
      notifyReadyRoots tx.downstream
        (subCounter tx.queuedForExecution
          (delNode
            (detachFromDownstream txid tx.downstream
              (storeAnnotations result
                (updTx (updTx s0 txid (fun r => { r with executed := true }))
                  txid (fun r => { r with indexed := true }))))
            txid))) s

/-- `getDownstreamStmt` (`SELECT down FROM deps WHERE up = ?`), in
insertion order. -/
def depsDownOf (s : Db) (up : String) : List String :=
  (s.deps.filter (fun p => p.1 = up)).map (·.2)

/-- Is a `tx` row executable and unexecuted (the join condition of
`getUpstreamUnexecutedStmt` and `getUnexecutedDepsStmt`). -/
def rowExecUnexecuted (s : Db) (txid : String) : Bool :=
  match alGet s.txTable txid with
  | some r => r.executable && !r.executed
  | none => false

/-- `getUpstreamUnexecutedStmt`: the persistent upstream edges of a txid
whose upstream endpoint is executable and unexecuted. -/
def upstreamUnexecutedOf (s : Db) (down : String) : List String :=
  ((s.deps.filter (fun p => p.2 = down)).map (·.1)).filter (rowExecUnexecuted s)

/-- The prefix deletes (`DELETE ... WHERE location LIKE ? || '%'`) used
by `deleteTransaction` and `unindexTransaction`. -/
def deleteByTxPre {α : Type} (l : List (String × α)) (txid : String) : List (String × α) :=
  l.filter (fun p => !(p.1.startsWith txid))

/-- The node `unindexTransaction` resurrects from a `tx` row:
`new UnexecutedTx(txid, downloaded, downloaded ? !!has_code : null)`. -/
def resurrectedNode (r : TxRecord) : UnexecutedTx :=
  { downloaded := r.bytes.isSome,
    hasCode := if r.bytes.isSome then some r.hasCode else none,
    queuedForExecution := false, upstream := [], downstream := [] }

/-- The loop of the resurrection branch of `unindexTransaction`
(lines 577-583): rebuild the new node upstream links from the persistent
edge table, skipping upstream txids that are not in the map (the source
has the same `if (!uptx) continue` guard). -/
def rebuildUpstream (txid : String) (ups : List String) (node : UnexecutedTx) (s : Db) :
    UnexecutedTx × Db :=
  ups.foldl (fun (p : UnexecutedTx × Db) u =>
    match alGet p.2.unexecuted u with
    | none => p
    | some _ =>
      ({ p.1 with upstream := p.1.upstream ++ [u] },
       updNode p.2 u (fun n => { n with downstream := addUnique n.downstream txid }))) (node, s)

/-- `this.unexecuted.set(txid, tx)` for a freshly built node. -/
def appendNode (txid : String) (p : UnexecutedTx × Db) : Db :=
  { p.2 with unexecuted := p.2.unexecuted ++ [(txid, p.1)] }

/-- Build and insert the resurrected node inside `unindexTransaction`. -/
def resurrectNode (txid : String) (node0 : UnexecutedTx) (s : Db) : Db :=
  appendNode txid (rebuildUpstream txid (upstreamUnexecutedOf s txid) node0 s)

/-- The jig and berry state clears of `unindexTransaction`. -/
def clearStates (txid : String) (s : Db) : Db :=
  { s with jig := deleteByTxPre s.jig txid, berry := deleteByTxPre s.berry txid }

/-- The recursion of `unindexTransaction` over the persistent downstream
txids. -/
def unindexKids (rec : String → Db → Db) (txid : String) (t : Db) : Db :=
  (depsDownOf t txid).foldl (fun acc d => rec d acc) t

/-- `unindexTransaction(txid)` (lines 559-592).  A node still in the map
is force-unqueued; otherwise an indexed record is reset, its states are
cleared and a fresh node is resurrected, then every persistent downstream
txid is unindexed recursively.  A missing `tx` row makes the source throw
(`.get(txid)[0]` on `undefined`) and the store transaction roll back; the
embedding returns the input state there. -/
def unindexTransaction : Nat → String → Db → Db
  | 0, _, s => s
  | fuel + 1, txid, s =>
    match alGet s.unexecuted txid with
    | some _ => checkExecutability fuel txid (some false) s
    | none =>
      match alGet s.txTable txid with
      | none => s
      | some r =>
        if r.indexed then
          { emitEv
              (unindexKids (unindexTransaction fuel) txid
                (resurrectNode txid (resurrectedNode r)
                  (clearStates txid
                    (updTx (updTx { s with txDepth := s.txDepth + 1 }
                      txid (fun w => { w with executed := false }))
                      txid (fun w => { w with indexed := false })))))
              (.unindexTx txid)
            with txDepth := s.txDepth }
        else s

/-- `addDep(tx, deptxid)` (lines 616-629); `tx` is passed by the txid it
is stored under. -/
def addDep (rmo : String → Bool) (now : Int) (fuel : Nat) (txTxid deptxid : String) (s : Db) : Db :=
  match alGet (depStep now deptxid txTxid s).unexecuted deptxid with
  | some _ => addEdgePair deptxid txTxid (depStep now deptxid txTxid s)
  | none =>
    if !(indexedOf (depStep now deptxid txTxid s) deptxid)
    then setTransactionExecutionFailed rmo fuel txTxid (depStep now deptxid txTxid s)
    else depStep now deptxid txTxid s

/-- One step of the `addMissingDeps` dep loop, threading the captured
node object `tx` alongside the state.  While the txid is still in the
map the object is the map entry itself (so it is re-read after the edge
wiring); after the loop's own `setTransactionExecutionFailed(tx.txid)`
removed it, the only source mutations that still reach the dangling
object are the failure's `tx.queuedForExecution = false` write and the
later `tx.upstream.add(deptx)` calls of the remaining iterations. -/
def addDepObj (rmo : String → Bool) (now : Int) (fuel : Nat) (txid deptxid : String)
    (p : Db × UnexecutedTx) : Db × UnexecutedTx :=
  match alGet (depStep now deptxid txid p.1).unexecuted deptxid with
  | some _ =>
    (addEdgePair deptxid txid (depStep now deptxid txid p.1),
     match alGet (addEdgePair deptxid txid (depStep now deptxid txid p.1)).unexecuted txid with
     | some n => n
     | none => { p.2 with upstream := addUnique p.2.upstream deptxid })
  | none =>
    if !(indexedOf (depStep now deptxid txid p.1) deptxid) then
      (setTransactionExecutionFailed rmo fuel txid (depStep now deptxid txid p.1),
       if (alGet (depStep now deptxid txid p.1).unexecuted txid).isSome
       then { p.2 with queuedForExecution := false }
       else p.2)
    else (depStep now deptxid txid p.1, p.2)

/-- `_checkExecutability(tx)` applied to a captured node object
(lines 864-894 via the call on line 642).  The source never re-consults
the map for `tx` itself, so this recheck also runs on a node the dep
loop just removed: the flag write then reaches only the dangling object
(`alUpd` of a missing key is a no-op), while the counter update and the
`onReadyToExecute` emission happen unconditionally. -/
def checkExecutabilityObj (fuel : Nat) (txid : String) (obj : UnexecutedTx) (s : Db) : Db :=
  if readyB s txid obj = obj.queuedForExecution then s
  else
    obj.downstream.foldl (fun acc d => checkExecutability fuel d none acc)
      (maybeEmitReady txid obj (readyB s txid obj)
        (checkExecFlip txid (readyB s txid obj) s))

/-- The final recheck of `addMissingDeps` over the loop's (state, object)
pair. -/
def finishAddMissing (fuel : Nat) (txid : String) (p : Db × UnexecutedTx) : Db :=
  checkExecutabilityObj fuel txid p.2 p.1

/-- `addMissingDeps(txid, deptxids)` (lines 631-644): the node object is
captured before the loop and the final `_checkExecutability(tx)` runs on
that object even when a failing dep removed the txid from the map. -/
def addMissingDeps (rmo : String → Bool) (now : Int) (fuel : Nat)
    (txid : String) (deptxids : List String) (s : Db) : Db :=
  match alGet s.unexecuted txid with
  | none => s
  | some tx =>
    inTxn (fun s0 =>
      finishAddMissing fuel txid
        (deptxids.foldl (fun p d => addDepObj rmo now fuel txid d p) (s0, tx))) s

/-- The BFS upstream walk of `trust(txid)` (lines 719-727): breadth
first with a visited set, collecting untrusted code-bearing ancestors in
discovery order.  The walk only reads the state. -/
def trustWalk (s : Db) : Nat → List String → List String → List String → List String
  | 0, _, _, acc => acc
  | _ + 1, [], _, acc => acc
  | fuel + 1, t :: rest, visited, acc =>
    if visited.contains t then trustWalk s fuel rest visited acc
    else
      match alGet s.unexecuted t with
      | none => trustWalk s fuel rest (t :: visited) acc
      | some n =>
        trustWalk s fuel (rest ++ n.upstream) (t :: visited)
          (if truthy n.hasCode && !(s.trustlist.contains t) then acc ++ [t] else acc)

/-- The `trusted` list `trust(txid)` builds before storing anything. -/
def trustedListOf (fuel : Nat) (txid : String) (s : Db) : List String :=
  match alGet s.unexecuted txid with
  | some tx => txid :: trustWalk s fuel tx.upstream [] []
  | none => [txid]

/-- `const tx = this.unexecuted.get(txid); if (tx) this._checkExecutability(tx)`. -/
def checkIfPresent (fuel : Nat) (txid : String) (s : Db) : Db :=
  match alGet s.unexecuted txid with
  | some _ => checkExecutability fuel txid none s
  | none => s

/-- The store, apply, recheck and emit phases of `trust(txid)` over the
collected `trusted` list. -/
def trustApply (fuel : Nat) (trusted : List String) (s : Db) : Db :=
  trusted.foldl (fun acc t => emitEv acc (.trustTx t))
    (trusted.foldl (fun acc t => checkIfPresent fuel t acc)
      (inTxn (fun t0 =>
        trusted.foldl (fun acc t => { acc with trustlist := addUnique acc.trustlist t })
          (trusted.foldl (fun acc t => { acc with trustTable := alSet acc.trustTable t true }) t0)) s))

/-- `trust(txid)` (lines 712-741). -/
def trust (fuel : Nat) (txid : String) (s : Db) : Db :=
  if s.trustlist.contains txid then s
  else trustApply fuel (trustedListOf fuel txid s) s

/-- `setTrustedStmt` (`INSERT OR REPLACE INTO trust (txid, value)`). -/
def setTrustRow (b : Bool) (txid : String) (s : Db) : Db :=
  { s with trustTable := alSet s.trustTable txid b }

/-- The store-transaction phase of `untrust(txid)`. -/
def untrustTxnPhase (fuel : Nat) (txid : String) (s : Db) : Db :=
  inTxn (fun t0 => setTrustRow false txid (unindexTransaction fuel txid t0)) s

/-- `untrust(txid)` (lines 743-751). -/
def untrust (fuel : Nat) (txid : String) (s : Db) : Db :=
  if !(s.trustlist.contains txid) then s
  else
    emitEv
      { untrustTxnPhase fuel txid s with
        trustlist := (untrustTxnPhase fuel txid s).trustlist.erase txid }
      (.untrustTx txid)

/-- `unban(txid)` (lines 800-807); note the `ban` table delete and the
re-evaluation run outside any store transaction. -/
def unban (fuel : Nat) (txid : String) (s : Db) : Db :=
  if !(s.banlist.contains txid) then s
  else
    emitEv
      (checkIfPresent fuel txid
        { s with banTable := s.banTable.erase txid, banlist := s.banlist.erase txid })
      (.unbanTx txid)

/-! ### Specification invariants and concrete traces -/

/-- The number of nodes in the unexecuted map whose flag is set. -/
def countQueued (s : Db) : Nat :=
  s.unexecuted.countP (fun p => p.2.queuedForExecution)

/-- Specification invariant 1: every node of the unexecuted map has
`queuedForExecution = ready(n)` under the current trust and ban state. -/
def inv1Check (s : Db) : Bool :=
  s.unexecuted.all (fun p => p.2.queuedForExecution = readyB s p.1 p.2)

/-- Specification claim about edges: a dependency edge is materialised in
the in-memory adjacency sets exactly when it is recorded in the
persistent `deps` table and both endpoints are in the unexecuted map. -/
def inv6Check (s : Db) : Bool :=
  (s.deps.all (fun e =>
    !((alGet s.unexecuted e.1).isSome && (alGet s.unexecuted e.2).isSome) ||
    (((alGet s.unexecuted e.2).map (fun n => n.upstream.contains e.1)).getD false &&
     ((alGet s.unexecuted e.1).map (fun n => n.downstream.contains e.2)).getD false))) &&
  (s.unexecuted.all (fun p =>
    p.2.upstream.all (fun u => s.deps.contains (u, p.1) && (alGet s.unexecuted u).isSome) &&
    p.2.downstream.all (fun d => s.deps.contains (p.1, d) && (alGet s.unexecuted d).isSome)))

/-- The state of a freshly opened database with no rows, no trusted and
no banned txids (the default trustlist is configuration data; every entry
of it can be removed again through `untrust`, so this state is reachable
and all traces below start here). -/
def db0 : Db :=
  { txTable := [], deps := [], spends := [], jig := [], berry := [],
    trustTable := [], banTable := [], trustlist := [], banlist := [],
    unexecuted := [], numQueuedForExecution := 0, events := [], txDepth := 0 }

/-- A classifier that never recognises bytes as a Run transaction (used
by traces whose failed transactions should not cascade). -/
def rmoF : String → Bool := fun _ => false

/-- Trace step: a fresh txid `aa` is announced at clock 1000. -/
def tA1 : Db := addNewTransaction 1000 "aa" db0

/-- Trace step: `aa` is parsed as executable without code and becomes
ready (no deps, nothing banned, no code so no trust needed). -/
def tA2 : Db := storeParsedExecutableTransaction rmoF 1000 8 "aa" "abcd" false [] [] [] tA1

/-- Trace step for claim 1: `aa` is unindexed while still in the map. -/
def tA3 : Db := unindexTransaction 8 "aa" tA2

/-- Claim 6 trace: `aa` is parsed, executed and indexed. -/
def tC3 : Db := storeExecutedTransaction "aa" ⟨[], [], [], []⟩ tA2

/-- Claim 6 trace, continued: `bb` declared with the already indexed dep
`aa`. -/
def tC5 : Db :=
  storeParsedExecutableTransaction rmoF 1001 8 "bb" "cdef" false ["aa"] [] []
    (addNewTransaction 1001 "bb" tC3)

/-- Claim 6 trace, continued: `aa` resurrected by `unindexTransaction`
while its downstream `bb` is already in the map. -/
def tC6 : Db := unindexTransaction 8 "aa" tC5

/-- Scenario S3 of the specification: `aa` and `bb` both executable with
code, `bb` depending on `aa`, neither trusted. -/
def tS4 : Db :=
  storeParsedExecutableTransaction rmoF 1001 8 "bb" "cdef" true ["aa"] [] []
    (addNewTransaction 1001 "bb"
      (storeParsedExecutableTransaction rmoF 1000 8 "aa" "abcd" true [] [] []
        (addNewTransaction 1000 "aa" db0)))

/-- Scenario S3, continued: `trust("bb")`. -/
def tS5 : Db := trust 8 "bb" tS4

/-- Claim 9 trace: `untrust("bb")` right after `trust("bb")`. -/
def tS6 : Db := untrust 8 "bb" tS5

/-- Claim 7 trace: `nn` parsed non-executable (so its record has
`indexed = 0` and it leaves the map), then `bb` parsed executable
declaring the dep `nn`. -/
def tD4 : Db :=
  storeParsedExecutableTransaction rmoF 1001 8 "bb" "cdef" false ["nn"] [] []
    (addNewTransaction 1001 "bb"
      (storeParsedNonExecutableTransaction 8 "nn" "abcd" [] []
        (addNewTransaction 1000 "nn" db0)))

/-- A txid whose execution has been marked failed: its `tx` row ends with
`executable = 0`, `executed = 1`, `indexed = 0` and it has no node in the
unexecuted map. -/
def failedMark (txid : String) (t : Db) : Prop :=
  (∃ r, alGet t.txTable txid = some r ∧ r.executable = false ∧
    r.executed = true ∧ r.indexed = false) ∧
  alGet t.unexecuted txid = none

/-- The state in which the dependency loop of
`storeParsedExecutableTransaction` runs: the store transaction is open and
the bytes, executable and has-code columns and the node flags have been
written. -/
def parseEntryState (txid hex : String) (hasCode : Bool)
    (inputs outputs : List String) (s : Db) : Db :=
  updNode
    (storeSpends txid inputs outputs
      (updTx (updTx (updTx { s with txDepth := s.txDepth + 1 }
        txid (fun r => { r with bytes := some hex }))
        txid (fun r => { r with executable := true }))
        txid (fun r => { r with hasCode := hasCode })))
    txid (fun n => { n with hasCode := some hasCode, downloaded := true })

/-- Every node present in the first state is still present in the second
with an unchanged upstream list. -/
def UpPres (s s2 : Db) : Prop :=
  ∀ d n, alGet s.unexecuted d = some n →
    ∃ n2, alGet s2.unexecuted d = some n2 ∧ n2.upstream = n.upstream

/-- Every txid with a node in the unexecuted map also has a `tx` row
(the loader and `addNewTransaction` establish this; `database.js` reads
the row of every map member without a null check). -/
def RowCov (t : Db) : Prop :=
  ∀ x, (alGet t.unexecuted x).isSome = true → (alGet t.txTable x).isSome = true

/-- Reachability through one or more upstream links of in-memory nodes
(the ancestors the `trust` walk visits). -/
inductive UpReach (s : Db) (t : String) : String → Prop
  | base : ∀ {n u}, alGet s.unexecuted t = some n → u ∈ n.upstream → UpReach s t u
  | step : ∀ {v n u}, UpReach s t v → alGet s.unexecuted v = some n → u ∈ n.upstream →
      UpReach s t u

/-- An upstream path whose nodes all avoid the visited set (the frontier
argument of the BFS completeness invariant). -/
inductive AvoidPath (s : Db) (visited : List String) : String → String → Prop
  | refl : ∀ {x}, x ∉ visited → AvoidPath s visited x x
  | cons : ∀ {q n u x}, q ∉ visited → alGet s.unexecuted q = some n → u ∈ n.upstream →
      AvoidPath s visited u x → AvoidPath s visited q x

/-- Total upstream degree of the unvisited part of the unexecuted map. -/
def sumUp (s : Db) (visited : List String) : Nat :=
  ((s.unexecuted.filter (fun p => !(visited.contains p.1))).map
    (fun p => p.2.upstream.length)).sum

/-- Fuel bound under which the `trust` walk drains its queue. -/
def walkMeasure (s : Db) (queue visited : List String) : Nat :=
  queue.length + sumUp s visited

/-- Claim 3 counterexample trace: `aa` parsed executable with code, `bb`
trusted while it has no upstream links yet. -/
def tE4 : Db :=
  trust 8 "bb"
    (addNewTransaction 1001 "bb"
      (storeParsedExecutableTransaction rmoF 1000 8 "aa" "abcd" true [] [] []
        (addNewTransaction 1000 "aa" db0)))

/-- Claim 3 counterexample trace, continued: `bb` is then parsed with the
dep `aa`, wiring the upstream edge to the still-untrusted code tx `aa`. -/
def tE5 : Db :=
  storeParsedExecutableTransaction rmoF 1001 8 "bb" "cdef" true ["aa"] [] [] tE4

/-! ### Association list lemmas -/

theorem alGet_alUpd_self {α : Type} (l : List (String × α)) (k : String) (f : α → α) :
    alGet (alUpd l k f) k = (alGet l k).map f := by
  induction l with
  | nil => rfl
  | cons a l ih =>
    by_cases h : a.1 = k <;> simp [alUpd, alGet, h, ih]

theorem alGet_alUpd_ne {α : Type} (l : List (String × α)) (k k2 : String) (f : α → α)
    (h : k ≠ k2) : alGet (alUpd l k f) k2 = alGet l k2 := by
  induction l with
  | nil => rfl
  | cons a l ih =>
    by_cases h2 : a.1 = k
    · subst h2
      simp [alUpd, alGet, h, Ne.symm h, ih]
    · by_cases h3 : a.1 = k2 <;> simp [alUpd, alGet, h2, h3, Ne.symm h, ih]

theorem alGet_none_of_key_notin {α : Type} (l : List (String × α)) (k : String)
    (h : k ∉ l.map Prod.fst) : alGet l k = none := by
  induction l with
  | nil => rfl
  | cons a l ih =>
    simp only [List.map_cons, List.mem_cons] at h
    push_neg at h
    have h1 : ¬a.1 = k := fun he => h.1 he.symm
    simp [alGet, h1, ih h.2]

theorem key_notin_alDel {α : Type} (l : List (String × α)) (k : String)
    (hn : (l.map Prod.fst).Nodup) : k ∉ (alDel l k).map Prod.fst := by
  induction l with
  | nil => simp [alDel]
  | cons a l ih =>
    simp only [List.map_cons, List.nodup_cons] at hn
    by_cases h : a.1 = k
    · subst h
      simpa [alDel] using hn.1
    · simp only [alDel, if_neg h, List.map_cons, List.mem_cons]
      push_neg
      exact ⟨fun he => h he.symm, ih hn.2⟩

theorem alGet_alDel_self {α : Type} (l : List (String × α)) (k : String)
    (hn : (l.map Prod.fst).Nodup) : alGet (alDel l k) k = none :=
  alGet_none_of_key_notin _ _ (key_notin_alDel l k hn)

theorem alGet_alDel_ne {α : Type} (l : List (String × α)) (k k2 : String)
    (h : k ≠ k2) : alGet (alDel l k) k2 = alGet l k2 := by
  induction l with
  | nil => rfl
  | cons a l ih =>
    by_cases h2 : a.1 = k
    · subst h2
      simp only [alDel, if_pos rfl, alGet]
      have : ¬a.1 = k2 := fun he => h he
      simp [this]
    · by_cases h3 : a.1 = k2 <;> simp [alDel, alGet, h2, h3, Ne.symm h, ih]

theorem alGet_append {α : Type} (l1 l2 : List (String × α)) (k : String) :
    alGet (l1 ++ l2) k = if (alGet l1 k).isSome then alGet l1 k else alGet l2 k := by
  induction l1 with
  | nil => rfl
  | cons a l ih =>
    by_cases h : a.1 = k <;> simp [alGet, h, ih]

theorem alUpd_missing {α : Type} (l : List (String × α)) (k : String) (f : α → α)
    (h : alGet l k = none) : alUpd l k f = l := by
  induction l with
  | nil => rfl
  | cons a l ih =>
    by_cases h2 : a.1 = k
    · simp [alGet, h2] at h
    · simp only [alGet, if_neg h2] at h
      simp [alUpd, h2, ih h]

/-- The queued-node count of a raw node list. -/
def countQ (l : List (String × UnexecutedTx)) : Nat :=
  l.countP (fun p => p.2.queuedForExecution)

theorem countQueued_eq (s : Db) : countQueued s = countQ s.unexecuted := rfl

theorem countQ_append (l1 l2 : List (String × UnexecutedTx)) :
    countQ (l1 ++ l2) = countQ l1 + countQ l2 := by
  simp [countQ, List.countP_append]

theorem countQ_alUpd_pres (l : List (String × UnexecutedTx)) (k : String)
    (f : UnexecutedTx → UnexecutedTx)
    (hf : ∀ n, (f n).queuedForExecution = n.queuedForExecution) :
    countQ (alUpd l k f) = countQ l := by
  induction l with
  | nil => rfl
  | cons a l ih =>
    by_cases h : a.1 = k
    · simp [alUpd, h, countQ, List.countP_cons, hf]
    · simp only [alUpd, if_neg h, countQ, List.countP_cons]
      simp only [countQ] at ih
      omega

theorem countQ_alDel (l : List (String × UnexecutedTx)) (k : String) (n : UnexecutedTx)
    (hget : alGet l k = some n) :
    (countQ (alDel l k) : Int) = (countQ l : Int) - (if n.queuedForExecution then 1 else 0) := by
  induction l with
  | nil => simp [alGet] at hget
  | cons a l ih =>
    by_cases h : a.1 = k
    · simp only [alGet, if_pos h] at hget
      injection hget with hget
      subst hget
      simp only [alDel, if_pos h, countQ, List.countP_cons]
      by_cases h2 : a.2.queuedForExecution <;> simp [h2]
    · simp only [alGet, if_neg h] at hget
      simp only [alDel, if_neg h, countQ, List.countP_cons]
      have := ih hget
      simp only [countQ] at this
      by_cases h2 : a.2.queuedForExecution <;> simp only [h2, if_true, if_false] <;> omega

/-- Fold preservation of a state predicate. -/
theorem foldl_preserves {α β : Type} (P : β → Prop) (f : β → α → β)
    (h : ∀ b a, P b → P (f b a)) : ∀ (l : List α) (b : β), P b → P (List.foldl f b l) := by
  intro l
  induction l with
  | nil => intro b hb; exact hb
  | cons a l ih => intro b hb; exact ih (f b a) (h b a hb)

/-- Fold preservation of a derived value. -/
theorem foldl_pres_fn {α β γ : Type} (g : β → γ) (f : β → α → β)
    (h : ∀ b a, g (f b a) = g b) : ∀ (l : List α) (b : β), g (List.foldl f b l) = g b := by
  intro l
  induction l with
  | nil => intro b; rfl
  | cons a l ih => intro b; rw [List.foldl_cons, ih, h]

/-! ### The queue counter invariant through each operation -/

/-- Invariant 2 as a predicate on states. -/
def QOK (s : Db) : Prop := s.numQueuedForExecution = (countQueued s : Int)

theorem QOK_inTxn (f : Db → Db) (s : Db)
    (h : QOK (f { s with txDepth := s.txDepth + 1 })) : QOK (inTxn f s) := h

theorem QOK_emitEv (s : Db) (e : DbEvent) (h : QOK s) : QOK (emitEv s e) := h

theorem QOK_updNode_pres (s : Db) (t : String) (f : UnexecutedTx → UnexecutedTx)
    (hf : ∀ n, (f n).queuedForExecution = n.queuedForExecution) (h : QOK s) :
    QOK (updNode s t f) := by
  simpa only [QOK, updNode, countQueued_eq, countQ_alUpd_pres _ _ _ hf] using h

theorem QOK_detach (txid : String) (downs : List String) (s : Db) (h : QOK s) :
    QOK (detachFromDownstream txid downs s) := by
  unfold detachFromDownstream
  exact foldl_preserves QOK
    (fun acc d => updNode acc d (fun n => { n with upstream := n.upstream.erase txid }))
    (fun b a hb => QOK_updNode_pres _ _ _ (fun n => rfl) hb) downs s h

theorem QOK_notify (downs : List String) (s : Db) (h : QOK s) :
    QOK (notifyReadyRoots downs s) := by
  unfold notifyReadyRoots
  refine foldl_preserves QOK _ (fun b a hb => ?_) downs s h
  cases alGet b.unexecuted a with
  | none => exact hb
  | some dn =>
    simp only
    split
    · exact QOK_emitEv _ _ hb
    · exact hb

theorem QOK_addNodeIfAbsent (txid : String) (s : Db) (h : QOK s) :
    QOK (addNodeIfAbsent txid s) := by
  unfold addNodeIfAbsent
  split
  · exact h
  · simp only [QOK, countQueued_eq, countQ_append] at h ⊢
    have hz : countQ [(txid, newNode)] = 0 := rfl
    rw [hz]
    omega

theorem QOK_addNewTransaction (now : Int) (txid : String) (s : Db) (h : QOK s) :
    QOK (addNewTransaction now txid s) := by
  unfold addNewTransaction
  split
  · exact h
  · exact QOK_addNodeIfAbsent _ _ (QOK_emitEv _ _ h)

/-- Remove a node then decrement keyed on its captured flag (the
`storeExecutedTransaction` and `setTransactionExecutionFailed` order). -/
theorem QOK_delThenSub (s : Db) (txid : String) (b : Bool)
    (hq : getQueued s txid = some b) (h : QOK s) :
    QOK (subCounter b (delNode s txid)) := by
  unfold getQueued at hq
  cases hv : alGet s.unexecuted txid with
  | none => rw [hv] at hq; simp at hq
  | some n =>
    rw [hv] at hq
    replace hq : n.queuedForExecution = b := by simpa using hq
    have hdel := countQ_alDel s.unexecuted txid n hv
    rw [hq] at hdel
    cases b with
    | false =>
      simp only [subCounter, if_neg (Bool.false_ne_true)]
      simp only [QOK, delNode, countQueued_eq] at h ⊢
      simp only [Bool.false_eq_true, if_false] at hdel
      omega
    | true =>
      simp [subCounter]
      simp only [QOK, delNode, countQueued_eq] at h ⊢
      simp at hdel
      omega

theorem getQueued_updNode_pres (s : Db) (d : String) (f : UnexecutedTx → UnexecutedTx)
    (hf : ∀ n, (f n).queuedForExecution = n.queuedForExecution) (t : String) :
    getQueued (updNode s d f) t = getQueued s t := by
  unfold getQueued updNode
  by_cases h : d = t
  · subst h
    show (alGet (alUpd s.unexecuted d f) d).map _ = _
    rw [alGet_alUpd_self]
    cases alGet s.unexecuted d <;> simp [hf]
  · show (alGet (alUpd s.unexecuted d f) t).map _ = _
    rw [alGet_alUpd_ne _ _ _ _ h]

theorem getQueued_detach (txid : String) (downs : List String) (s : Db) (t : String) :
    getQueued (detachFromDownstream txid downs s) t = getQueued s t := by
  unfold detachFromDownstream
  exact foldl_pres_fn (fun b => getQueued b t)
    (fun acc d => updNode acc d (fun n => { n with upstream := n.upstream.erase txid }))
    (fun b a => getQueued_updNode_pres b a
      (fun n => { n with upstream := n.upstream.erase txid }) (fun n => rfl) t) downs s

theorem QOK_failTail (rec : String → Db → Db) (rmo : String → Bool) (txid : String)
    (downs : List String) (s : Db) (hrec : ∀ d t, QOK t → QOK (rec d t)) (h : QOK s) :
    QOK (failTail rec rmo txid downs s) := by
  unfold failTail
  split
  · exact foldl_preserves QOK (fun acc d => rec d acc) (fun b a hb => hrec a b hb) downs s h
  · exact QOK_notify downs s h

theorem QOK_setTransactionExecutionFailed (rmo : String → Bool) (fuel : Nat) :
    ∀ (txid : String) (s : Db), QOK s →
      QOK (setTransactionExecutionFailed rmo fuel txid s) := by
  induction fuel with
  | zero => intro txid s h; exact h
  | succ fuel ih =>
    intro txid s h
    unfold setTransactionExecutionFailed
    cases hget : alGet s.unexecuted txid with
    | none => exact h
    | some tx =>
      apply QOK_inTxn
      apply QOK_failTail _ _ _ _ _ (fun d t ht => ih d t ht)
      apply QOK_delThenSub
      · rw [getQueued_detach]
        show getQueued s txid = some tx.queuedForExecution
        simp [getQueued, hget]
      · apply QOK_detach
        exact h

theorem QOK_depIns (s : Db) (a b : String) (h : QOK s) : QOK (depIns s a b) := by
  unfold depIns
  split
  · exact h
  · exact h

theorem QOK_depStep (now : Int) (d txid : String) (s : Db) (h : QOK s) :
    QOK (depStep now d txid s) :=
  QOK_depIns _ _ _ (QOK_addNewTransaction now d s h)

theorem QOK_addEdgePair (d txid : String) (s : Db) (h : QOK s) :
    QOK (addEdgePair d txid s) :=
  QOK_updNode_pres _ _ _ (fun n => rfl)
    (QOK_updNode_pres _ _ _ (fun n => rfl) h)

theorem QOK_addDep (rmo : String → Bool) (now : Int) (fuel : Nat) (txTxid deptxid : String)
    (s : Db) (h : QOK s) : QOK (addDep rmo now fuel txTxid deptxid s) := by
  unfold addDep
  cases alGet (depStep now deptxid txTxid s).unexecuted deptxid with
  | some _ => exact QOK_addEdgePair _ _ _ (QOK_depStep _ _ _ _ h)
  | none =>
    simp only
    split
    · exact QOK_setTransactionExecutionFailed rmo fuel _ _ (QOK_depStep _ _ _ _ h)
    · exact QOK_depStep _ _ _ _ h

theorem alGet_mem {α : Type} (l : List (String × α)) (k : String) (v : α)
    (h : alGet l k = some v) : (k, v) ∈ l := by
  induction l with
  | nil => simp [alGet] at h
  | cons a l ih =>
    by_cases h2 : a.1 = k
    · simp only [alGet, if_pos h2] at h
      injection h with h
      subst h
      subst h2
      exact List.mem_cons_self _ _
    · simp only [alGet, if_neg h2] at h
      exact List.mem_cons_of_mem _ (ih h)

theorem all_false_of_mem {α : Type} (l : List α) (p : α → Bool) (x : α)
    (hx : x ∈ l) (hpx : p x = false) : l.all p = false := by
  cases hall : l.all p with
  | false => rfl
  | true =>
    rw [List.all_eq_true] at hall
    rw [hall x hx] at hpx
    exact absurd hpx (by simp)

theorem all_congr_of_mem {α : Type} (l : List α) (p q : α → Bool)
    (h : ∀ x ∈ l, p x = q x) : l.all p = l.all q := by
  induction l with
  | nil => rfl
  | cons a l ih =>
    simp only [List.all_cons]
    rw [h a (List.mem_cons_self a l), ih (fun x hx => h x (List.mem_cons_of_mem a hx))]

theorem flagOf_addNode (s : Db) (txid u : String) :
    flagOf { s with unexecuted := s.unexecuted ++ [(txid, newNode)] } u = flagOf s u := by
  unfold flagOf
  show (match alGet (s.unexecuted ++ [(txid, newNode)]) u with
    | some n => n.queuedForExecution | none => false) = _
  rw [alGet_append]
  cases hu : alGet s.unexecuted u with
  | some n => simp
  | none =>
    simp only [Option.isSome_none, Bool.false_eq_true, if_false]
    cases hv : alGet [(txid, newNode)] u with
    | none => simp
    | some m =>
      have : m = newNode := by
        simp only [alGet] at hv
        by_cases ht : txid = u
        · rw [if_pos ht] at hv; injection hv with hv; exact hv.symm
        · rw [if_neg ht] at hv; simp [alGet] at hv
      subst this
      simp [newNode]

theorem readyB_addNode (s : Db) (txid t : String) (n : UnexecutedTx) :
    readyB { s with unexecuted := s.unexecuted ++ [(txid, newNode)] } t n = readyB s t n := by
  unfold readyB
  have : n.upstream.all (flagOf { s with unexecuted := s.unexecuted ++ [(txid, newNode)] }) =
      n.upstream.all (flagOf s) :=
    all_congr_of_mem _ _ _ (fun u _ => flagOf_addNode s txid u)
  rw [this]

/-- `addNewTransaction` preserves the readiness invariant: the new node
is not downloaded and unflagged, and no existing readiness value moves. -/
theorem inv1_addNewTransaction (now : Int) (txid : String) (s : Db)
    (h : inv1Check s = true) : inv1Check (addNewTransaction now txid s) = true := by
  unfold addNewTransaction
  split
  · exact h
  · unfold addNodeIfAbsent
    split
    · exact h
    · show ((s.unexecuted ++ [(txid, newNode)]).all fun p =>
        p.2.queuedForExecution = readyB { s with unexecuted := s.unexecuted ++ [(txid, newNode)] } p.1 p.2) = true
      rw [List.all_append]
      unfold inv1Check at h
      have h1 : (s.unexecuted.all fun p =>
          p.2.queuedForExecution = readyB { s with unexecuted := s.unexecuted ++ [(txid, newNode)] } p.1 p.2) = true := by
        rw [all_congr_of_mem _ _
          (fun p => p.2.queuedForExecution = readyB s p.1 p.2)
          (fun p _ => by rw [readyB_addNode])]
        exact h
      rw [h1]
      simp [newNode, readyB]

theorem flagOf_flip_other (s : Db) (txid u : String) (q : Bool) (hu : u ≠ txid) :
    flagOf (checkExecFlip txid q s) u = flagOf s u := by
  unfold flagOf checkExecFlip
  show (match alGet (alUpd s.unexecuted txid _) u with
    | some n => n.queuedForExecution | none => false) = _
  rw [alGet_alUpd_ne _ _ _ _ (Ne.symm hu)]

theorem readyB_congr (s s2 : Db) (t : String) (n n2 : UnexecutedTx)
    (htl : s2.trustlist = s.trustlist) (hbl : s2.banlist = s.banlist)
    (hd : n2.downloaded = n.downloaded) (hh : n2.hasCode = n.hasCode)
    (hu : n2.upstream = n.upstream) (hfl : ∀ u ∈ n.upstream, flagOf s2 u = flagOf s u) :
    readyB s2 t n2 = readyB s t n := by
  unfold readyB
  rw [htl, hbl, hd, hh, hu, all_congr_of_mem _ _ _ hfl]

/-- `unindexTransaction` on a node still in the map installs
`queuedForExecution = false` without recomputing readiness, so the
invariant fails at that node whenever `ready(n)` holds. -/
theorem inv1_unindex_forces_false (fuel : Nat) (txid : String) (s : Db) (n : UnexecutedTx)
    (hfuel : 2 ≤ fuel) (hget : alGet s.unexecuted txid = some n) (hdown : n.downstream = [])
    (hup : txid ∉ n.upstream) (hready : readyB s txid n = true) :
    inv1Check (unindexTransaction fuel txid s) = false := by
  obtain ⟨f, rfl⟩ : ∃ f, fuel = f + 2 := ⟨fuel - 2, by omega⟩
  unfold unindexTransaction
  rw [hget]
  dsimp only
  unfold checkExecutability
  rw [hget]
  dsimp only
  cases hq : n.queuedForExecution with
  | false =>
    rw [if_pos (show forcedReady (some false) s txid n = false by rfl)]
    exact all_false_of_mem _ _ (txid, n) (alGet_mem _ _ _ hget) (by simp [hq, hready])
  | true =>
    rw [if_neg (by simp [forcedReady])]
    rw [hdown]
    show inv1Check (maybeEmitReady txid n (forcedReady (some false) s txid n)
      (checkExecFlip txid (forcedReady (some false) s txid n) s)) = false
    have hforced : forcedReady (some false) s txid n = false := rfl
    rw [hforced]
    have hm : maybeEmitReady txid n false (checkExecFlip txid false s) =
        checkExecFlip txid false s := by
      unfold maybeEmitReady
      simp
    rw [hm]
    have hget2 : alGet (checkExecFlip txid false s).unexecuted txid =
        some { n with queuedForExecution := false } := by
      show alGet (alUpd s.unexecuted txid _) txid = _
      rw [alGet_alUpd_self, hget]
      rfl
    have hr2 : readyB (checkExecFlip txid false s) txid { n with queuedForExecution := false } =
        readyB s txid n := by
      refine readyB_congr _ _ _ _ _ rfl rfl rfl rfl rfl (fun u hu2 => ?_)
      exact flagOf_flip_other s txid u false (fun he => hup (he ▸ hu2))
    apply all_false_of_mem _ _ _ (alGet_mem _ _ _ hget2)
    simp [hr2, hready]

/-- Claim 1 counterexample: in the reachable state `tA2` the invariant
holds, and the single further mutation `unindexTransaction("aa")` breaks
it: the node keeps `ready = true` but its flag is forced to false. -/
theorem claim1_ready_invariant_counterexample :
    inv1Check tA2 = true ∧ inv1Check tA3 = false := by decide

/-- Claim 1 amended: the invariant `queuedForExecution = ready(n)` is
preserved by `addNew`, but it does not survive every mutation:
`unindexTransaction` on a node that is still in the unexecuted map
installs `queuedForExecution = false` without re-deriving readiness, so
the invariant fails at that node exactly when `ready(n)` holds (`untrust`
and `ban` reach the same forced reset through their internal
`unindexTransaction`). -/
theorem claim1_ready_invariant_amended :
    (∀ (now : Int) (txid : String) (s : Db), inv1Check s = true →
      inv1Check (addNewTransaction now txid s) = true) ∧
    (∀ (fuel : Nat) (txid : String) (s : Db) (n : UnexecutedTx), 2 ≤ fuel →
      alGet s.unexecuted txid = some n → n.downstream = [] → txid ∉ n.upstream →
      readyB s txid n = true →
      inv1Check (unindexTransaction fuel txid s) = false) :=
  ⟨inv1_addNewTransaction, inv1_unindex_forces_false⟩

/-- Witness for the amended claim 1 at concrete inputs. -/
theorem claim1_ready_invariant_amended_witness :
    inv1Check (addNewTransaction 5 "cc" db0) = true ∧
    inv1Check (unindexTransaction 8 "aa" tA2) = false :=
  ⟨claim1_ready_invariant_amended.1 5 "cc" db0 (by decide),
   claim1_ready_invariant_amended.2 8 "aa" tA2
     { downloaded := true, hasCode := some false, queuedForExecution := true,
       upstream := [], downstream := [] }
     (by decide) (by decide) (by decide) (by decide) (by decide)⟩

/-- Claim 5: the `addNewTransaction` prepared statement binds the receipt
time to the `height` column (`VALUES (?, ?, null, null, 0, 0, 0, 0)`), so
the inserted row has `height = now` and `time = NULL`, and
`getTransactionTime` returns null immediately after insertion instead of
the insertion time; the unexecuted node is created as claimed with
`downloaded = false` and `hasCode` unknown. -/
theorem claim5_addNew_time_bug :
    ((alGet tA1.txTable "aa").map (·.height)) = some (some 1000) ∧
    ((alGet tA1.txTable "aa").map (·.time)) = some none ∧
    getTransactionTime tA1 "aa" = none ∧
    alGet tA1.unexecuted "aa" = some newNode := by decide

/-! ### Claim 10: mutators guard on map membership -/

/-- Claim 10: `storeExecuted`, `setExecutionFailed` and `addMissingDeps`
on a txid with no node in the unexecuted map return the state unchanged:
no table row, no in-memory structure, no counter and no recorded event
changes. -/
theorem claim10_missing_node_noop (s : Db) (txid : String) (result : ExecResult)
    (rmo : String → Bool) (now : Int) (fuel : Nat) (deps : List String)
    (h : alGet s.unexecuted txid = none) :
    storeExecutedTransaction txid result s = s ∧
    setTransactionExecutionFailed rmo fuel txid s = s ∧
    addMissingDeps rmo now fuel txid deps s = s := by
  refine ⟨?_, ?_, ?_⟩
  · unfold storeExecutedTransaction
    rw [h]
  · cases fuel with
    | zero => rfl
    | succ f =>
      unfold setTransactionExecutionFailed
      rw [h]
  · unfold addMissingDeps
    rw [h]

/-- Witness for claim 10 at a concrete state and txid. -/
theorem claim10_missing_node_noop_witness :
    storeExecutedTransaction "zz" ⟨[], [], [], []⟩ tA2 = tA2 ∧
    setTransactionExecutionFailed rmoF 8 "zz" tA2 = tA2 ∧
    addMissingDeps rmoF 1000 8 "zz" [] tA2 = tA2 :=
  claim10_missing_node_noop tA2 "zz" ⟨[], [], [], []⟩ rmoF 1000 8 [] (by decide)

/-! ### Claim 4: when callbacks run relative to the store transaction -/

/-- All events the state has gained over `s0` are tagged with the depth
of `s0`, and the depth is back to that of `s0`. -/
def EvOK (s0 s : Db) : Prop :=
  s.txDepth = s0.txDepth ∧
  ∀ e ∈ s.events, e ∈ s0.events ∨ e.insideTxn = decide (0 < s0.txDepth)

theorem EvOK_refl (s0 : Db) : EvOK s0 s0 :=
  ⟨rfl, fun e he => Or.inl he⟩

theorem EvOK_pure (s0 s s2 : Db) (he : s2.events = s.events) (hd : s2.txDepth = s.txDepth)
    (h : EvOK s0 s) : EvOK s0 s2 := by
  unfold EvOK at h ⊢
  rw [he, hd]
  exact h

theorem EvOK_emitEv (s0 s : Db) (e : DbEvent) (h : EvOK s0 s) : EvOK s0 (emitEv s e) := by
  obtain ⟨hd, hev⟩ := h
  refine ⟨hd, fun x hx => ?_⟩
  unfold emitEv at hx
  simp only [List.mem_append, List.mem_singleton] at hx
  cases hx with
  | inl hx => exact hev x hx
  | inr hx =>
    subst hx
    right
    show decide (0 < s.txDepth) = decide (0 < s0.txDepth)
    rw [hd]

theorem EvOK_maybeEmitReady (s0 s : Db) (txid : String) (tx : UnexecutedTx) (q : Bool)
    (h : EvOK s0 s) : EvOK s0 (maybeEmitReady txid tx q s) := by
  unfold maybeEmitReady
  split
  · exact EvOK_emitEv s0 s _ h
  · exact h

theorem EvOK_checkExecutability (s0 : Db) (fuel : Nat) :
    ∀ (txid : String) (force : Option Bool) (s : Db), EvOK s0 s →
      EvOK s0 (checkExecutability fuel txid force s) := by
  induction fuel with
  | zero => intro txid force s h; exact h
  | succ fuel ih =>
    intro txid force s h
    unfold checkExecutability
    cases alGet s.unexecuted txid with
    | none => exact h
    | some tx =>
      dsimp only
      split
      · exact h
      · refine foldl_preserves (EvOK s0) (fun acc d => checkExecutability fuel d none acc)
          (fun b a hb => ih a none b hb) _ _ ?_
        exact EvOK_maybeEmitReady s0 _ _ _ _ h

theorem EvOK_checkIfPresent (s0 : Db) (fuel : Nat) (txid : String) (s : Db)
    (h : EvOK s0 s) : EvOK s0 (checkIfPresent fuel txid s) := by
  unfold checkIfPresent
  cases alGet s.unexecuted txid with
  | none => exact h
  | some _ => exact EvOK_checkExecutability s0 fuel txid none s h

/-- The store-transaction body of `trust` records no events. -/
theorem trustTxn_events (trusted : List String) (x : Db) :
    (inTxn (fun t0 =>
      trusted.foldl (fun (acc : Db) t => { acc with trustlist := addUnique acc.trustlist t })
        (trusted.foldl (fun (acc : Db) t => { acc with trustTable := alSet acc.trustTable t true }) t0)) x).events
      = x.events := by
  show (trusted.foldl (fun (acc : Db) t => { acc with trustlist := addUnique acc.trustlist t })
      (trusted.foldl (fun (acc : Db) t => { acc with trustTable := alSet acc.trustTable t true })
        { x with txDepth := x.txDepth + 1 })).events = x.events
  refine foldl_preserves (fun t : Db => t.events = x.events) _ ?_ _ _ ?_
  · exact fun b a hb => hb
  refine foldl_preserves (fun t : Db => t.events = x.events) _ ?_ _ _ ?_
  · exact fun b a hb => hb
  rfl

theorem EvOK_trustApply (s0 : Db) (fuel : Nat) (trusted : List String) (s : Db)
    (h : EvOK s0 s) : EvOK s0 (trustApply fuel trusted s) := by
  unfold trustApply
  refine foldl_preserves (EvOK s0) (fun acc t => emitEv acc (.trustTx t))
    (fun b a hb => EvOK_emitEv s0 b _ hb) _ _ ?_
  refine foldl_preserves (EvOK s0) (fun acc t => checkIfPresent fuel t acc)
    (fun b a hb => EvOK_checkIfPresent s0 fuel a b hb) _ _ ?_
  exact EvOK_pure s0 s _ (trustTxn_events trusted s) rfl h

/-- All `trust` callbacks run outside any store transaction: the trust
rows and the in-memory set are written inside the transaction, but the
re-evaluation (hence any `onReadyToExecute`) and all
`onTrustTransaction` calls happen after it ends. -/
theorem trust_events_outside (fuel : Nat) (txid : String) (s : Db) (hd : s.txDepth = 0) :
    ∀ e ∈ (trust fuel txid s).events, e ∈ s.events ∨ e.insideTxn = false := by
  have h : EvOK s (trust fuel txid s) := by
    unfold trust
    split
    · exact EvOK_refl s
    · exact EvOK_trustApply s fuel _ s (EvOK_refl s)
  intro e he
  have := h.2 e he
  rw [hd] at this
  simpa using this

/-- All `addNewTransaction` callbacks run outside any store transaction
(the method opens none). -/
theorem addNew_events_outside (now : Int) (txid : String) (s : Db) (hd : s.txDepth = 0) :
    ∀ e ∈ (addNewTransaction now txid s).events, e ∈ s.events ∨ e.insideTxn = false := by
  have h : EvOK s (addNewTransaction now txid s) := by
    unfold addNewTransaction
    split
    · exact EvOK_refl s
    · unfold addNodeIfAbsent
      split
      · exact EvOK_emitEv s _ _ (EvOK_refl s)
      · exact EvOK_pure s _ _ rfl rfl (EvOK_emitEv s _ _ (EvOK_refl s))
  intro e he
  have := h.2 e he
  rw [hd] at this
  simpa using this

/-- All `unban` callbacks run outside any store transaction (the method
opens none). -/
theorem unban_events_outside (fuel : Nat) (txid : String) (s : Db) (hd : s.txDepth = 0) :
    ∀ e ∈ (unban fuel txid s).events, e ∈ s.events ∨ e.insideTxn = false := by
  have h : EvOK s (unban fuel txid s) := by
    unfold unban
    split
    · exact EvOK_refl s
    · refine EvOK_emitEv s _ _ (EvOK_checkIfPresent s fuel txid _ ?_)
      exact EvOK_pure s s _ rfl rfl (EvOK_refl s)
  intro e he
  have := h.2 e he
  rw [hd] at this
  simpa using this

/-- Claim 4 counterexample: in the trace reaching `tA2` (all calls made
at depth 0), `storeParsedExecutableTransaction` fires `onReadyToExecute`
from inside its open store transaction, so the event is recorded with
`insideTxn = true`. -/
theorem claim4_events_counterexample :
    tA2.txDepth = 0 ∧ (⟨DbEvent.readyToExecute "aa", true⟩ : Emitted) ∈ tA2.events := by
  decide

/-- Claim 4 amended: only `addNewTransaction` (which opens no store
transaction), `trust` (whose re-evaluation and `onTrustTransaction`
calls run after its transaction ends) and `unban` invoke every callback
outside an open store transaction; the parse, execute, fail, delete and
unindex paths invoke `onReadyToExecute`, `onDeleteTransaction` and
`onUnindexTransaction` from inside the open store transaction, as the
counterexample records. -/
theorem claim4_events_amended :
    (∀ (now : Int) (txid : String) (s : Db), s.txDepth = 0 →
      ∀ e ∈ (addNewTransaction now txid s).events, e ∈ s.events ∨ e.insideTxn = false) ∧
    (∀ (fuel : Nat) (txid : String) (s : Db), s.txDepth = 0 →
      ∀ e ∈ (trust fuel txid s).events, e ∈ s.events ∨ e.insideTxn = false) ∧
    (∀ (fuel : Nat) (txid : String) (s : Db), s.txDepth = 0 →
      ∀ e ∈ (unban fuel txid s).events, e ∈ s.events ∨ e.insideTxn = false) :=
  ⟨addNew_events_outside, trust_events_outside, unban_events_outside⟩

/-- Witness for the amended claim 4: the `onTrustTransaction("bb")` call
of the scenario S3 trust is recorded outside any transaction. -/
theorem claim4_events_amended_witness :
    (⟨DbEvent.trustTx "bb", false⟩ : Emitted) ∈ tS4.events ∨
      (⟨DbEvent.trustTx "bb", false⟩ : Emitted).insideTxn = false :=
  claim4_events_amended.2.1 8 "bb" tS4 (by decide) ⟨DbEvent.trustTx "bb", false⟩ (by decide)

/-! ### Claim 9: trust then untrust -/

theorem trustlist_checkExecutability (fuel : Nat) :
    ∀ (txid : String) (force : Option Bool) (s : Db),
      (checkExecutability fuel txid force s).trustlist = s.trustlist := by
  induction fuel with
  | zero => intro txid force s; rfl
  | succ fuel ih =>
    intro txid force s
    unfold checkExecutability
    cases alGet s.unexecuted txid with
    | none => rfl
    | some tx =>
      dsimp only
      split
      · rfl
      · refine foldl_preserves (fun t : Db => t.trustlist = s.trustlist)
          (fun acc d => checkExecutability fuel d none acc) ?_ _ _ ?_
        · intro b a hb
          rw [ih a none b, hb]
        · show (maybeEmitReady _ _ _ _).trustlist = s.trustlist
          unfold maybeEmitReady
          split <;> rfl

theorem trustlist_unindexTransaction (fuel : Nat) :
    ∀ (txid : String) (s : Db), (unindexTransaction fuel txid s).trustlist = s.trustlist := by
  induction fuel with
  | zero => intro txid s; rfl
  | succ fuel ih =>
    intro txid s
    unfold unindexTransaction
    cases alGet s.unexecuted txid with
    | some _ => exact trustlist_checkExecutability fuel txid (some false) s
    | none =>
      cases alGet s.txTable txid with
      | none => rfl
      | some r =>
        dsimp only
        split
        · unfold unindexKids
          refine foldl_preserves (fun t : Db => t.trustlist = s.trustlist)
            (fun acc d => unindexTransaction fuel d acc) ?_ _ _ ?_
          · intro b a hb
            rw [ih a b, hb]
          · unfold resurrectNode appendNode rebuildUpstream
            refine foldl_preserves (fun p : UnexecutedTx × Db => p.2.trustlist = s.trustlist)
              _ ?_ _ _ rfl
            intro b a hb
            cases alGet b.2.unexecuted a with
            | none => exact hb
            | some _ => exact hb
        · rfl

theorem checkIfPresent_none (fuel : Nat) (txid : String) (s : Db)
    (h : alGet s.unexecuted txid = none) : checkIfPresent fuel txid s = s := by
  unfold checkIfPresent
  rw [h]

/-- On a txid with no node in the map, `trust` simply appends the txid to
the trust set and leaves the map untouched. -/
theorem trust_notmap (fuel : Nat) (txid : String) (s : Db)
    (hnt : s.trustlist.contains txid = false)
    (hmap : alGet s.unexecuted txid = none) :
    (trust fuel txid s).trustlist = s.trustlist ++ [txid] ∧
    (trust fuel txid s).unexecuted = s.unexecuted := by
  unfold trust
  rw [hnt]
  simp only [Bool.false_eq_true, if_false]
  unfold trustedListOf
  rw [hmap]
  unfold trustApply
  simp only [List.foldl_cons, List.foldl_nil]
  rw [checkIfPresent_none fuel txid]
  · constructor
    · show addUnique s.trustlist txid = s.trustlist ++ [txid]
      unfold addUnique
      rw [hnt]
      simp
    · rfl
  · exact hmap

theorem trustlist_untrustTxnPhase (fuel : Nat) (txid : String) (s : Db) :
    (untrustTxnPhase fuel txid s).trustlist = s.trustlist := by
  unfold untrustTxnPhase
  show (setTrustRow false txid (unindexTransaction fuel txid _)).trustlist = s.trustlist
  show (unindexTransaction fuel txid { s with txDepth := s.txDepth + 1 }).trustlist = s.trustlist
  rw [trustlist_unindexTransaction]

/-- Claim 9 amended: `trust(t); untrust(t)` returns the in-memory trust
set to its pre-state when `trust(t)` added only `t` itself — in
particular whenever `t` has no node in the unexecuted map (so the
upstream walk collects nothing).  The `hasTransaction` hypothesis keeps
the embedding on the source path: without a `tx` row the source `untrust`
throws inside `unindexTransaction` and never reaches
`trustlist.delete`.  When the walk does collect untrusted code-bearing
ancestors, they stay trusted afterwards (the counterexample). -/
theorem claim9_trust_untrust_amended (fuel : Nat) (txid : String) (s : Db)
    (hnt : s.trustlist.contains txid = false)
    (hmap : alGet s.unexecuted txid = none)
    (hrec : hasTransaction s txid = true) :
    (untrust fuel txid (trust fuel txid s)).trustlist = s.trustlist := by
  obtain ⟨hTL, hMap⟩ := trust_notmap fuel txid s hnt hmap
  unfold untrust
  have hContains : (trust fuel txid s).trustlist.contains txid = true := by
    rw [hTL]
    simp
  rw [hContains]
  simp only [Bool.not_true, Bool.false_eq_true, if_false]
  show ((untrustTxnPhase fuel txid (trust fuel txid s)).trustlist.erase txid) = s.trustlist
  rw [trustlist_untrustTxnPhase, hTL]
  have hn2 : txid ∉ s.trustlist := by
    intro hmem
    rw [show s.trustlist.contains txid = true by simpa using hmem] at hnt
    exact absurd hnt (by simp)
  rw [List.erase_append_right _ hn2]
  simp

/-- Witness for the amended claim 9: trusting then untrusting a txid that
is recorded but fully executed (tC3 has `aa` indexed and out of the map)
restores the empty trust set. -/
theorem claim9_trust_untrust_amended_witness :
    (untrust 8 "aa" (trust 8 "aa" tC3)).trustlist = tC3.trustlist :=
  claim9_trust_untrust_amended 8 "aa" tC3 (by decide) (by decide) (by decide)

/-- Claim 9 counterexample: in scenario S3 (`bb` depends on `aa`, both
with code, nothing trusted), `trust("bb")` also trusts the ancestor `aa`;
`untrust("bb")` removes only `bb`, leaving the trust set `{aa}` instead
of the original empty set. -/
theorem claim9_trust_untrust_counterexample :
    tS4.trustlist = [] ∧ tS6.trustlist = ["aa"] := by decide

/-! ### Claim 6: edge materialisation after unindex -/

theorem UpPres_refl (s : Db) : UpPres s s :=
  fun d n h => ⟨n, h, rfl⟩

theorem UpPres_trans (s t u : Db) (h1 : UpPres s t) (h2 : UpPres t u) : UpPres s u := by
  intro d n h
  obtain ⟨n2, hg2, hu2⟩ := h1 d n h
  obtain ⟨n3, hg3, hu3⟩ := h2 d n2 hg2
  exact ⟨n3, hg3, by rw [hu3, hu2]⟩

theorem UpPres_updNode (s : Db) (u : String) (f : UnexecutedTx → UnexecutedTx)
    (hf : ∀ n, (f n).upstream = n.upstream) : UpPres s (updNode s u f) := by
  intro d n h
  unfold updNode
  by_cases he : u = d
  · subst he
    refine ⟨f n, ?_, hf n⟩
    show alGet (alUpd s.unexecuted u f) u = _
    rw [alGet_alUpd_self, h]
    rfl
  · refine ⟨n, ?_, rfl⟩
    show alGet (alUpd s.unexecuted u f) d = _
    rw [alGet_alUpd_ne _ _ _ _ he, h]

theorem UpPres_checkExecutability (fuel : Nat) :
    ∀ (txid : String) (force : Option Bool) (s : Db),
      UpPres s (checkExecutability fuel txid force s) := by
  induction fuel with
  | zero => intro txid force s; exact UpPres_refl s
  | succ fuel ih =>
    intro txid force s
    unfold checkExecutability
    cases alGet s.unexecuted txid with
    | none => exact UpPres_refl s
    | some tx =>
      dsimp only
      split
      · exact UpPres_refl s
      · refine foldl_preserves (UpPres s) (fun acc d => checkExecutability fuel d none acc)
          (fun b a hb => UpPres_trans s b _ hb (ih a none b)) _ _ ?_
        have h1 : UpPres s (checkExecFlip txid (forcedReady force s txid tx) s) := by
          unfold checkExecFlip
          exact UpPres_updNode s txid _ (fun n => rfl)
        unfold maybeEmitReady
        split
        · exact h1
        · exact h1

theorem UpPres_unindexTransaction (fuel : Nat) :
    ∀ (txid : String) (s : Db), UpPres s (unindexTransaction fuel txid s) := by
  induction fuel with
  | zero => intro txid s; exact UpPres_refl s
  | succ fuel ih =>
    intro txid s
    unfold unindexTransaction
    cases alGet s.unexecuted txid with
    | some _ => exact UpPres_checkExecutability fuel txid (some false) s
    | none =>
      cases alGet s.txTable txid with
      | none => exact UpPres_refl s
      | some r =>
        dsimp only
        split
        · show UpPres s _
          have hbase : UpPres s (resurrectNode txid (resurrectedNode r)
              (clearStates txid
                (updTx (updTx { s with txDepth := s.txDepth + 1 }
                  txid (fun w => { w with executed := false }))
                  txid (fun w => { w with indexed := false })))) := by
            unfold resurrectNode appendNode
            have hre : UpPres s (rebuildUpstream txid
                (upstreamUnexecutedOf (clearStates txid
                  (updTx (updTx { s with txDepth := s.txDepth + 1 }
                    txid (fun w => { w with executed := false }))
                    txid (fun w => { w with indexed := false }))) txid)
                (resurrectedNode r)
                (clearStates txid
                  (updTx (updTx { s with txDepth := s.txDepth + 1 }
                    txid (fun w => { w with executed := false }))
                    txid (fun w => { w with indexed := false })))).2 := by
              unfold rebuildUpstream
              refine foldl_preserves (fun p : UnexecutedTx × Db => UpPres s p.2) _ ?_ _ _ ?_
              · intro b a hb
                cases alGet b.2.unexecuted a with
                | none => exact hb
                | some _ =>
                  exact UpPres_trans s b.2 _ hb (UpPres_updNode b.2 a _ (fun n => rfl))
              · exact fun d n h => ⟨n, h, rfl⟩
            intro d n h
            obtain ⟨n2, hg2, hu2⟩ := hre d n h
            refine ⟨n2, ?_, hu2⟩
            show alGet (_ ++ [(txid, _)]) d = _
            rw [alGet_append, hg2]
            rfl
          refine UpPres_trans s _ _ hbase ?_
          unfold unindexKids
          refine foldl_preserves (UpPres _) (fun acc d => unindexTransaction fuel d acc)
            (fun b a hb => UpPres_trans _ b _ hb (ih a b)) _ _ (UpPres_refl _)
        · exact UpPres_refl s

theorem deps_checkExecutability (fuel : Nat) :
    ∀ (txid : String) (force : Option Bool) (s : Db),
      (checkExecutability fuel txid force s).deps = s.deps := by
  induction fuel with
  | zero => intro txid force s; rfl
  | succ fuel ih =>
    intro txid force s
    unfold checkExecutability
    cases alGet s.unexecuted txid with
    | none => rfl
    | some tx =>
      dsimp only
      split
      · rfl
      · refine foldl_preserves (fun t : Db => t.deps = s.deps)
          (fun acc d => checkExecutability fuel d none acc) ?_ _ _ ?_
        · intro b a hb
          rw [ih a none b, hb]
        · show (maybeEmitReady _ _ _ _).deps = s.deps
          unfold maybeEmitReady
          split <;> rfl

theorem deps_unindexTransaction (fuel : Nat) :
    ∀ (txid : String) (s : Db), (unindexTransaction fuel txid s).deps = s.deps := by
  induction fuel with
  | zero => intro txid s; rfl
  | succ fuel ih =>
    intro txid s
    unfold unindexTransaction
    cases alGet s.unexecuted txid with
    | some _ => exact deps_checkExecutability fuel txid (some false) s
    | none =>
      cases alGet s.txTable txid with
      | none => rfl
      | some r =>
        dsimp only
        split
        · unfold unindexKids
          refine foldl_preserves (fun t : Db => t.deps = s.deps)
            (fun acc d => unindexTransaction fuel d acc) ?_ _ _ ?_
          · intro b a hb
            rw [ih a b, hb]
          · unfold resurrectNode appendNode rebuildUpstream
            refine foldl_preserves (fun p : UnexecutedTx × Db => p.2.deps = s.deps)
              _ ?_ _ _ rfl
            intro b a hb
            cases alGet b.2.unexecuted a with
            | none => exact hb
            | some _ => exact hb
        · rfl

theorem alGet_resurrectNode_self (txid : String) (node0 : UnexecutedTx) (s : Db)
    (h : alGet s.unexecuted txid = none) :
    (alGet (resurrectNode txid node0 s).unexecuted txid).isSome = true := by
  unfold resurrectNode appendNode
  show (alGet (_ ++ [(txid, _)]) txid).isSome = true
  rw [alGet_append]
  have hn : alGet (rebuildUpstream txid (upstreamUnexecutedOf s txid)
      node0 s).2.unexecuted txid = none := by
    unfold rebuildUpstream
    refine foldl_preserves
      (fun p : UnexecutedTx × Db => alGet p.2.unexecuted txid = none) _ ?_ _ _ h
    intro b a hb
    cases hga : alGet b.2.unexecuted a with
    | none => exact hb
    | some _ =>
      show alGet (alUpd b.2.unexecuted a _) txid = none
      by_cases he : a = txid
      · subst he
        rw [hb] at hga
        exact absurd hga (by simp)
      · rw [alGet_alUpd_ne _ _ _ _ he]
        exact hb
  rw [hn]
  simp [alGet]

/-- After the resurrect branch of `unindexTransaction`, the target txid
has a node in the unexecuted map. -/
theorem unindex_resurrect_mem (fuel : Nat) (txid : String) (s : Db) (r : TxRecord)
    (hfuel : 1 ≤ fuel) (hmapT : alGet s.unexecuted txid = none)
    (hrow : alGet s.txTable txid = some r) (hindexed : r.indexed = true) :
    (alGet (unindexTransaction fuel txid s).unexecuted txid).isSome = true := by
  obtain ⟨f, rfl⟩ : ∃ f, fuel = f + 1 := ⟨fuel - 1, by omega⟩
  unfold unindexTransaction
  rw [hmapT]
  dsimp only
  rw [hrow]
  dsimp only
  rw [if_pos hindexed]
  have hres := alGet_resurrectNode_self txid (resurrectedNode r)
    (clearStates txid
      (updTx (updTx { s with txDepth := s.txDepth + 1 }
        txid (fun w => { w with executed := false }))
        txid (fun w => { w with indexed := false }))) hmapT
  have hkids := foldl_preserves
    (fun t : Db => (alGet t.unexecuted txid).isSome = true)
    (fun acc d => unindexTransaction f d acc)
    (fun b a hb => by
      obtain ⟨nb, hnb⟩ := Option.isSome_iff_exists.mp hb
      obtain ⟨n2, hg2, _⟩ := UpPres_unindexTransaction f a b txid nb hnb
      rw [hg2]
      rfl)
  exact hkids _ _ hres

/-- A persistent edge whose endpoints are both in the map but whose
upstream link is missing falsifies `inv6Check`. -/
theorem inv6_false_of_edge (s : Db) (t d : String) (n2 : UnexecutedTx)
    (hdep : (t, d) ∈ s.deps) (ht : (alGet s.unexecuted t).isSome = true)
    (hd : alGet s.unexecuted d = some n2) (hnup : n2.upstream.contains t = false) :
    inv6Check s = false := by
  unfold inv6Check
  have hall : s.deps.all (fun e =>
      !((alGet s.unexecuted e.1).isSome && (alGet s.unexecuted e.2).isSome) ||
      (((alGet s.unexecuted e.2).map (fun n => n.upstream.contains e.1)).getD false &&
       ((alGet s.unexecuted e.1).map (fun n => n.downstream.contains e.2)).getD false)) =
      false := by
    refine Bool.eq_false_iff.mpr (fun hq => ?_)
    have h2 := List.all_eq_true.mp hq (t, d) hdep
    rw [hd] at h2
    have hmem2 : t ∉ n2.upstream := by simpa using hnup
    simp [ht] at h2
    exact hmem2 h2.1
  rw [hall]
  rfl

/-- Claim C6: after `unindexTransaction` resurrects a node whose
persistent downstream neighbour was already in the unexecuted map, the
persistent edge is still in the deps table and both endpoints are in the
map, yet the resurrected txid is absent from the neighbour's upstream
set, so the claimed edge invariant fails. -/
theorem claim6_unindex_no_relink (fuel : Nat) (t d : String) (s : Db)
    (r : TxRecord) (nd : UnexecutedTx)
    (hfuel : 1 ≤ fuel) (hmapT : alGet s.unexecuted t = none)
    (hrow : alGet s.txTable t = some r) (hindexed : r.indexed = true)
    (hnd : alGet s.unexecuted d = some nd) (hdep : (t, d) ∈ s.deps)
    (hnup : nd.upstream.contains t = false) :
    (t, d) ∈ (unindexTransaction fuel t s).deps ∧
    (alGet (unindexTransaction fuel t s).unexecuted t).isSome = true ∧
    (∃ n2, alGet (unindexTransaction fuel t s).unexecuted d = some n2 ∧
      n2.upstream.contains t = false) ∧
    inv6Check (unindexTransaction fuel t s) = false := by
  obtain ⟨n2, hg2, hu2⟩ := UpPres_unindexTransaction fuel t s d nd hnd
  have hdeps := deps_unindexTransaction fuel t s
  have hmem := unindex_resurrect_mem fuel t s r hfuel hmapT hrow hindexed
  have hn2 : n2.upstream.contains t = false := by rw [hu2]; exact hnup
  exact ⟨by rw [hdeps]; exact hdep, hmem, ⟨n2, hg2, hn2⟩,
    inv6_false_of_edge _ t d n2 (by rw [hdeps]; exact hdep) hmem hg2 hn2⟩

/-- Claim C6 witness: the theorem applied to the concrete trace `tC5`
(`aa` indexed and out of the map, `bb` in the map with the persistent
edge `(aa, bb)`). -/
theorem claim6_unindex_no_relink_witness :
    ("aa", "bb") ∈ (unindexTransaction 8 "aa" tC5).deps ∧
    (alGet (unindexTransaction 8 "aa" tC5).unexecuted "aa").isSome = true ∧
    (∃ n2, alGet (unindexTransaction 8 "aa" tC5).unexecuted "bb" = some n2 ∧
      n2.upstream.contains "aa" = false) ∧
    inv6Check (unindexTransaction 8 "aa" tC5) = false :=
  claim6_unindex_no_relink 8 "aa" "bb" tC5 _ _ (by decide) (by decide) rfl
    rfl rfl (by decide) rfl

/-- Claim C6 counterexample: the edge invariant holds on `tC5` and is
broken by the immediately following `unindexTransaction("aa")`. -/
theorem claim6_edge_invariant_counterexample :
    inv6Check tC5 = true ∧ inv6Check tC6 = false := by
  constructor
  · decide
  · decide
/-! ### Claim 7: a permanently unindexed dep fails the dependent -/

theorem keys_alUpd {α : Type} (l : List (String × α)) (k : String) (f : α → α) :
    (alUpd l k f).map Prod.fst = l.map Prod.fst := by
  induction l with
  | nil => rfl
  | cons a l ih =>
    by_cases h : a.1 = k <;> simp [alUpd, h, ih]

theorem alGet_alUpd_none {α : Type} (l : List (String × α)) (k k2 : String) (f : α → α)
    (h : alGet l k2 = none) : alGet (alUpd l k f) k2 = none := by
  by_cases he : k = k2
  · subst he
    rw [alUpd_missing l k f h]
    exact h
  · rw [alGet_alUpd_ne l k k2 f he]
    exact h

theorem alGet_alUpd_isSome {α : Type} (l : List (String × α)) (k k2 : String) (f : α → α)
    (h : (alGet l k2).isSome = true) : (alGet (alUpd l k f) k2).isSome = true := by
  by_cases he : k = k2
  · subst he
    rw [alGet_alUpd_self]
    cases hg : alGet l k
    · rw [hg] at h
      cases h
    · rfl
  · rw [alGet_alUpd_ne l k k2 f he]
    exact h

theorem alGet_alDel_none {α : Type} (l : List (String × α)) (k k2 : String)
    (h : alGet l k2 = none) : alGet (alDel l k) k2 = none := by
  induction l with
  | nil => rfl
  | cons a l ih =>
    by_cases h1 : a.1 = k2
    · rw [alGet, if_pos h1] at h
      cases h
    · rw [alGet, if_neg h1] at h
      by_cases h2 : a.1 = k
      · rw [alDel, if_pos h2]
        exact h
      · rw [alDel, if_neg h2, alGet, if_neg h1]
        exact ih h

theorem alDel_sublist {α : Type} (l : List (String × α)) (k : String) :
    List.Sublist (alDel l k) l := by
  induction l with
  | nil => exact List.Sublist.refl _
  | cons a l ih =>
    by_cases h : a.1 = k
    · rw [alDel, if_pos h]
      exact List.Sublist.cons a (List.Sublist.refl l)
    · rw [alDel, if_neg h]
      exact List.Sublist.cons₂ a ih

theorem nodup_alDel {α : Type} (l : List (String × α)) (k : String)
    (h : (l.map Prod.fst).Nodup) : ((alDel l k).map Prod.fst).Nodup :=
  List.Nodup.sublist (List.Sublist.map Prod.fst (alDel_sublist l k)) h

theorem key_notin_of_alGet_none {α : Type} (l : List (String × α)) (k : String)
    (h : alGet l k = none) : k ∉ l.map Prod.fst := by
  induction l with
  | nil => simp
  | cons a l ih =>
    by_cases h1 : a.1 = k
    · rw [alGet, if_pos h1] at h
      cases h
    · rw [alGet, if_neg h1] at h
      simp only [List.map_cons, List.mem_cons]
      push_neg
      exact ⟨fun he => h1 he.symm, ih h⟩

theorem nodup_append_key {α : Type} (l : List (String × α)) (k : String) (v : α)
    (hn : (l.map Prod.fst).Nodup) (h : alGet l k = none) :
    ((l ++ [(k, v)]).map Prod.fst).Nodup := by
  simp only [List.map_append, List.map_cons, List.map_nil]
  rw [List.nodup_append]
  refine ⟨hn, List.nodup_singleton k, ?_⟩
  intro x hx
  simp only [List.mem_singleton]
  intro he
  exact key_notin_of_alGet_none l k h (he ▸ hx)

theorem alGet_append_left {α : Type} (l m : List (String × α)) (k : String)
    (h : (alGet l k).isSome = true) : alGet (l ++ m) k = alGet l k := by
  rw [alGet_append, if_pos h]

theorem alGet_append_single_ne {α : Type} (l : List (String × α)) (k k2 : String) (v : α)
    (h : alGet l k2 = none) (hne : k ≠ k2) : alGet (l ++ [(k, v)]) k2 = none := by
  rw [alGet_append, h]
  simp [alGet, hne]

theorem alGet_alIns_of_isSome {α : Type} (l : List (String × α)) (k : String) (v : α)
    (k2 : String) (h : (alGet l k2).isSome = true) : alGet (alIns l k v) k2 = alGet l k2 := by
  unfold alIns
  split
  · rfl
  · exact alGet_append_left l _ k2 h

theorem alGet_alIns_ne {α : Type} (l : List (String × α)) (k : String) (v : α)
    (k2 : String) (hne : k ≠ k2) : alGet (alIns l k v) k2 = alGet l k2 := by
  unfold alIns
  split
  · rfl
  · cases hg : alGet l k2 with
    | some w =>
      rw [alGet_append_left l _ k2 (by rw [hg]; rfl)]
      exact hg
    | none => rw [alGet_append_single_ne l k k2 v hg hne]

theorem failedMark_updNode (x k : String) (f : UnexecutedTx → UnexecutedTx) (s : Db)
    (h : failedMark x s) : failedMark x (updNode s k f) :=
  ⟨h.1, alGet_alUpd_none _ _ _ _ h.2⟩

theorem failedMark_delNode (x k : String) (s : Db) (h : failedMark x s) :
    failedMark x (delNode s k) :=
  ⟨h.1, alGet_alDel_none _ _ _ h.2⟩

theorem failedMark_emitEv (x : String) (e : DbEvent) (s : Db) (h : failedMark x s) :
    failedMark x (emitEv s e) := h

theorem failedMark_subCounter (x : String) (b : Bool) (s : Db) (h : failedMark x s) :
    failedMark x (subCounter b s) := by
  unfold subCounter
  split
  · exact h
  · exact h

theorem failedMark_detach (x t : String) (ds : List String) (s : Db)
    (h : failedMark x s) : failedMark x (detachFromDownstream t ds s) := by
  unfold detachFromDownstream
  refine foldl_preserves (failedMark x) _ ?_ _ _ h
  intro b a hb
  exact failedMark_updNode x a _ b hb

theorem failedMark_notify (x : String) (ds : List String) (s : Db)
    (h : failedMark x s) : failedMark x (notifyReadyRoots ds s) := by
  unfold notifyReadyRoots
  refine foldl_preserves (failedMark x) _ ?_ _ _ h
  intro b a hb
  cases alGet b.unexecuted a with
  | none => exact hb
  | some dn =>
    dsimp only
    split
    · exact failedMark_emitEv x _ b hb
    · exact hb

theorem failedMark_updTx_ne (x k : String) (f : TxRecord → TxRecord) (s : Db)
    (hne : k ≠ x) (h : failedMark x s) : failedMark x (updTx s k f) := by
  obtain ⟨⟨r, hr, h1, h2, h3⟩, hu⟩ := h
  refine ⟨⟨r, ?_, h1, h2, h3⟩, hu⟩
  show alGet (alUpd s.txTable k f) x = some r
  rw [alGet_alUpd_ne _ _ _ _ hne]
  exact hr

theorem failedMark_failTail (rmo : String → Bool) (x t : String) (ds : List String)
    (rec2 : String → Db → Db)
    (hrec : ∀ d' s', failedMark x s' → failedMark x (rec2 d' s'))
    (s : Db) (h : failedMark x s) : failedMark x (failTail rec2 rmo t ds s) := by
  unfold failTail
  split
  · exact foldl_preserves (failedMark x) _ (fun b a hb => hrec a b hb) _ _ h
  · exact failedMark_notify x ds _ h

theorem fail_pres (rmo : String → Bool) (x : String) :
    ∀ (fuel : Nat) (d : String) (s : Db),
      failedMark x s → failedMark x (setTransactionExecutionFailed rmo fuel d s) := by
  intro fuel
  induction fuel with
  | zero => intro d s h; exact h
  | succ fuel ih =>
    intro d s h
    unfold setTransactionExecutionFailed
    cases hget : alGet s.unexecuted d with
    | none => exact h
    | some tx =>
      dsimp only
      have hdx : d ≠ x := by
        intro he
        rw [he, h.2] at hget
        cases hget
      show failedMark x
          (failTail (setTransactionExecutionFailed rmo fuel) rmo d tx.downstream
            (subCounter tx.queuedForExecution
              (delNode
                (detachFromDownstream d tx.downstream
                  (updTx (updTx (updTx { s with txDepth := s.txDepth + 1 }
                    d (fun r => { r with executable := false }))
                    d (fun r => { r with executed := true }))
                    d (fun r => { r with indexed := false })))
                d)))
      exact failedMark_failTail rmo x d tx.downstream _
        (fun d' s' hp => ih d' s' hp) _
        (failedMark_subCounter x _ _
          (failedMark_delNode x d _
            (failedMark_detach x d tx.downstream _
              (failedMark_updTx_ne x d _ _ hdx
                (failedMark_updTx_ne x d _ _ hdx
                  (failedMark_updTx_ne x d _ _ hdx h))))))

theorem failedMark_core (txid : String) (ds : List String) (t : Db) (r0 : TxRecord)
    (hrow : alGet t.txTable txid = some r0)
    (hnodup : (t.unexecuted.map Prod.fst).Nodup) :
    failedMark txid
      (delNode
        (detachFromDownstream txid ds
          (updTx (updTx (updTx t txid (fun r => { r with executable := false }))
            txid (fun r => { r with executed := true }))
            txid (fun r => { r with indexed := false })))
        txid) := by
  have hdet : (detachFromDownstream txid ds
      (updTx (updTx (updTx t txid (fun r => { r with executable := false }))
        txid (fun r => { r with executed := true }))
        txid (fun r => { r with indexed := false }))).txTable =
      alUpd (alUpd (alUpd t.txTable txid (fun r => { r with executable := false }))
        txid (fun r => { r with executed := true }))
        txid (fun r => { r with indexed := false }) := by
    unfold detachFromDownstream
    exact foldl_pres_fn (fun x : Db => x.txTable)
      (fun acc d => updNode acc d (fun n => { n with upstream := n.upstream.erase txid }))
      (fun b a => rfl) _ _
  have hkeys : (detachFromDownstream txid ds
      (updTx (updTx (updTx t txid (fun r => { r with executable := false }))
        txid (fun r => { r with executed := true }))
        txid (fun r => { r with indexed := false }))).unexecuted.map Prod.fst =
      t.unexecuted.map Prod.fst := by
    unfold detachFromDownstream
    exact foldl_pres_fn (fun x : Db => x.unexecuted.map Prod.fst)
      (fun acc d => updNode acc d (fun n => { n with upstream := n.upstream.erase txid }))
      (fun b a => keys_alUpd _ _ _) _ _
  constructor
  · refine ⟨{ r0 with executable := false, executed := true, indexed := false }, ?_, rfl, rfl, rfl⟩
    show alGet (detachFromDownstream txid ds
        (updTx (updTx (updTx t txid (fun r => { r with executable := false }))
          txid (fun r => { r with executed := true }))
          txid (fun r => { r with indexed := false }))).txTable txid =
        some { r0 with executable := false, executed := true, indexed := false }
    rw [hdet, alGet_alUpd_self, alGet_alUpd_self, alGet_alUpd_self, hrow]
    rfl
  · show alGet (alDel (detachFromDownstream txid ds
        (updTx (updTx (updTx t txid (fun r => { r with executable := false }))
          txid (fun r => { r with executed := true }))
          txid (fun r => { r with indexed := false }))).unexecuted txid) txid = none
    exact alGet_alDel_self _ _ (by rw [hkeys]; exact hnodup)

theorem fail_marks (rmo : String → Bool) (fuel : Nat) (txid : String) (s : Db)
    (tx0 : UnexecutedTx) (r0 : TxRecord)
    (hfuel : 1 ≤ fuel)
    (hnode : alGet s.unexecuted txid = some tx0)
    (hrow : alGet s.txTable txid = some r0)
    (hnodup : (s.unexecuted.map Prod.fst).Nodup) :
    failedMark txid (setTransactionExecutionFailed rmo fuel txid s) := by
  obtain ⟨f, rfl⟩ : ∃ f, fuel = f + 1 := ⟨fuel - 1, by omega⟩
  unfold setTransactionExecutionFailed
  rw [hnode]
  dsimp only
  show failedMark txid
      (failTail (setTransactionExecutionFailed rmo f) rmo txid tx0.downstream
        (subCounter tx0.queuedForExecution
          (delNode
            (detachFromDownstream txid tx0.downstream
              (updTx (updTx (updTx { s with txDepth := s.txDepth + 1 }
                txid (fun r => { r with executable := false }))
                txid (fun r => { r with executed := true }))
                txid (fun r => { r with indexed := false })))
            txid)))
  exact failedMark_failTail rmo txid txid tx0.downstream _
    (fun d' s' hp => fail_pres rmo txid f d' s' hp) _
    (failedMark_subCounter txid _ _
      (failedMark_core txid tx0.downstream { s with txDepth := s.txDepth + 1 } r0 hrow hnodup))

theorem txTable_depIns (s : Db) (u v : String) : (depIns s u v).txTable = s.txTable := by
  unfold depIns
  split <;> rfl

theorem unexec_depIns (s : Db) (u v : String) : (depIns s u v).unexecuted = s.unexecuted := by
  unfold depIns
  split <;> rfl

theorem rowGet_addNew (now : Int) (u k : String) (s : Db)
    (h : (alGet s.txTable k).isSome = true ∨ u ≠ k) :
    alGet (addNewTransaction now u s).txTable k = alGet s.txTable k := by
  have hh : alGet (alIns s.txTable u (bareRow now)) k = alGet s.txTable k := by
    cases h with
    | inl h2 => exact alGet_alIns_of_isSome _ _ _ _ h2
    | inr h2 => exact alGet_alIns_ne _ _ _ _ h2
  unfold addNewTransaction
  split
  · rfl
  · unfold addNodeIfAbsent
    split
    · exact hh
    · exact hh

theorem nodeGet_addNew_some (now : Int) (u k : String) (s : Db)
    (h : (alGet s.unexecuted k).isSome = true) :
    alGet (addNewTransaction now u s).unexecuted k = alGet s.unexecuted k := by
  unfold addNewTransaction
  split
  · rfl
  · unfold addNodeIfAbsent
    split
    · rfl
    · exact alGet_append_left _ _ _ h

theorem nodeGet_addNew_none (now : Int) (u k : String) (s : Db)
    (h : alGet s.unexecuted k = none) (hne : u ≠ k) :
    alGet (addNewTransaction now u s).unexecuted k = none := by
  unfold addNewTransaction
  split
  · exact h
  · unfold addNodeIfAbsent
    split
    · exact h
    · exact alGet_append_single_ne _ _ _ _ h hne

theorem nodup_addNew (now : Int) (u : String) (s : Db)
    (h : (s.unexecuted.map Prod.fst).Nodup) :
    ((addNewTransaction now u s).unexecuted.map Prod.fst).Nodup := by
  unfold addNewTransaction
  split
  · exact h
  · unfold addNodeIfAbsent
    split
    · exact h
    · next hns =>
      exact nodup_append_key _ _ _ h (Option.not_isSome_iff_eq_none.mp hns)

theorem rowGet_depStep (now : Int) (u txid k : String) (s : Db)
    (h : (alGet s.txTable k).isSome = true ∨ u ≠ k) :
    alGet (depStep now u txid s).txTable k = alGet s.txTable k := by
  unfold depStep
  rw [txTable_depIns]
  exact rowGet_addNew now u k s h

theorem nodeGet_depStep_some (now : Int) (u txid k : String) (s : Db)
    (h : (alGet s.unexecuted k).isSome = true) :
    alGet (depStep now u txid s).unexecuted k = alGet s.unexecuted k := by
  unfold depStep
  rw [unexec_depIns]
  exact nodeGet_addNew_some now u k s h

theorem nodeGet_depStep_none (now : Int) (u txid k : String) (s : Db)
    (h : alGet s.unexecuted k = none) (hne : u ≠ k) :
    alGet (depStep now u txid s).unexecuted k = none := by
  unfold depStep
  rw [unexec_depIns]
  exact nodeGet_addNew_none now u k s h hne

theorem nodup_depStep (now : Int) (u txid : String) (s : Db)
    (h : (s.unexecuted.map Prod.fst).Nodup) :
    ((depStep now u txid s).unexecuted.map Prod.fst).Nodup := by
  unfold depStep
  rw [unexec_depIns]
  exact nodup_addNew now u s h

theorem nodeGet_addEdgePair_some (u txid k : String) (s : Db)
    (h : (alGet s.unexecuted k).isSome = true) :
    (alGet (addEdgePair u txid s).unexecuted k).isSome = true := by
  unfold addEdgePair
  exact alGet_alUpd_isSome _ _ _ _ (alGet_alUpd_isSome _ _ _ _ h)

theorem nodeGet_addEdgePair_none (u txid k : String) (s : Db)
    (h : alGet s.unexecuted k = none) :
    alGet (addEdgePair u txid s).unexecuted k = none := by
  unfold addEdgePair
  exact alGet_alUpd_none _ _ _ _ (alGet_alUpd_none _ _ _ _ h)

theorem nodup_addEdgePair (u txid : String) (s : Db)
    (h : (s.unexecuted.map Prod.fst).Nodup) :
    ((addEdgePair u txid s).unexecuted.map Prod.fst).Nodup := by
  unfold addEdgePair
  show ((alUpd (alUpd s.unexecuted u _) txid _).map Prod.fst).Nodup
  rw [keys_alUpd, keys_alUpd]
  exact h

/-- The dependency loop of `storeParsedExecutableTransaction` takes the
early failure return when some declared dep has a `tx` row, no node and
`indexed = 0`, and the dependent ends marked failed. -/
theorem parseExecDeps_fail (rmo : String → Bool) (now : Int) (fuel : Nat) (txid : String)
    (hfuel : 1 ≤ fuel) :
    ∀ (ds : List String) (s : Db),
      (alGet s.unexecuted txid).isSome = true →
      (alGet s.txTable txid).isSome = true →
      (s.unexecuted.map Prod.fst).Nodup →
      (∃ d ∈ ds, (alGet s.txTable d).isSome = true ∧ alGet s.unexecuted d = none ∧
        indexedOf s d = false) →
      (parseExecDeps rmo now fuel txid ds s).2 = true ∧
      failedMark txid (parseExecDeps rmo now fuel txid ds s).1 := by
  intro ds
  induction ds with
  | nil =>
    intro s _ _ _ hw
    obtain ⟨d, hd, _⟩ := hw
    cases hd
  | cons u rest ih =>
    intro s hA hB hC hw
    obtain ⟨d, hdmem, hdrow, hdnode, hdind⟩ := hw
    by_cases hud : u = d
    · subst hud
      have haddnew : addNewTransaction now u s = s := by
        unfold addNewTransaction
        rw [if_pos (show hasTransaction s u = true from hdrow)]
      have hsc : alGet (depStep now u txid s).unexecuted u = none := by
        unfold depStep
        rw [haddnew, unexec_depIns]
        exact hdnode
      have hind : indexedOf (depStep now u txid s) u = false := by
        unfold indexedOf depStep
        rw [haddnew, txTable_depIns]
        exact hdind
      have hA2 : alGet (depStep now u txid s).unexecuted txid = alGet s.unexecuted txid := by
        unfold depStep
        rw [haddnew, unexec_depIns]
      have hB2 : alGet (depStep now u txid s).txTable txid = alGet s.txTable txid := by
        unfold depStep
        rw [haddnew, txTable_depIns]
      have hC2 : ((depStep now u txid s).unexecuted.map Prod.fst).Nodup := by
        unfold depStep
        rw [haddnew, unexec_depIns]
        exact hC
      obtain ⟨tx0, htx0⟩ := Option.isSome_iff_exists.mp hA
      obtain ⟨r0, hr0⟩ := Option.isSome_iff_exists.mp hB
      unfold parseExecDeps
      rw [hsc]
      dsimp only
      rw [hind]
      rw [if_pos (by rfl : (!false) = true)]
      exact ⟨rfl, fail_marks rmo fuel txid _ tx0 r0 hfuel
        (by rw [hA2]; exact htx0) (by rw [hB2]; exact hr0) hC2⟩
    · have hdrest : d ∈ rest := (List.mem_cons.mp hdmem).resolve_left (fun he => hud he.symm)
      have hune : u ≠ d := hud
      cases hsc : alGet (depStep now u txid s).unexecuted u with
      | some nu =>
        have hA2 := nodeGet_addEdgePair_some u txid txid (depStep now u txid s)
          (by rw [nodeGet_depStep_some now u txid txid s hA]; exact hA)
        have hB2 : alGet (addEdgePair u txid (depStep now u txid s)).txTable txid =
            alGet s.txTable txid := rowGet_depStep now u txid txid s (Or.inl hB)
        have hC2 := nodup_addEdgePair u txid (depStep now u txid s)
          (nodup_depStep now u txid s hC)
        have hW2 : (alGet (addEdgePair u txid (depStep now u txid s)).txTable d).isSome = true ∧
            alGet (addEdgePair u txid (depStep now u txid s)).unexecuted d = none ∧
            indexedOf (addEdgePair u txid (depStep now u txid s)) d = false := by
          have hrowd : alGet (addEdgePair u txid (depStep now u txid s)).txTable d =
              alGet s.txTable d := rowGet_depStep now u txid d s (Or.inr hune)
          refine ⟨by rw [hrowd]; exact hdrow, ?_, ?_⟩
          · exact nodeGet_addEdgePair_none u txid d _
              (nodeGet_depStep_none now u txid d s hdnode hune)
          · unfold indexedOf
            rw [hrowd]
            exact hdind
        unfold parseExecDeps
        rw [hsc]
        dsimp only
        exact ih _ hA2 (by rw [hB2]; exact hB) hC2 ⟨d, hdrest, hW2⟩
      | none =>
        cases hbi : indexedOf (depStep now u txid s) u with
        | false =>
          obtain ⟨tx0, htx0⟩ := Option.isSome_iff_exists.mp hA
          obtain ⟨r0, hr0⟩ := Option.isSome_iff_exists.mp hB
          unfold parseExecDeps
          rw [hsc]
          dsimp only
          rw [hbi]
          rw [if_pos (by rfl : (!false) = true)]
          refine ⟨rfl, fail_marks rmo fuel txid _ tx0 r0 hfuel ?_ ?_
            (nodup_depStep now u txid s hC)⟩
          · rw [nodeGet_depStep_some now u txid txid s hA]
            exact htx0
          · rw [rowGet_depStep now u txid txid s (Or.inl hB)]
            exact hr0
        | true =>
          have hA2 : (alGet (depStep now u txid s).unexecuted txid).isSome = true := by
            rw [nodeGet_depStep_some now u txid txid s hA]
            exact hA
          have hB2 : (alGet (depStep now u txid s).txTable txid).isSome = true := by
            rw [rowGet_depStep now u txid txid s (Or.inl hB)]
            exact hB
          have hW2 : (alGet (depStep now u txid s).txTable d).isSome = true ∧
              alGet (depStep now u txid s).unexecuted d = none ∧
              indexedOf (depStep now u txid s) d = false := by
            have hrowd : alGet (depStep now u txid s).txTable d =
                alGet s.txTable d := rowGet_depStep now u txid d s (Or.inr hune)
            refine ⟨by rw [hrowd]; exact hdrow,
              nodeGet_depStep_none now u txid d s hdnode hune, ?_⟩
            unfold indexedOf
            rw [hrowd]
            exact hdind
          unfold parseExecDeps
          rw [hsc]
          dsimp only
          rw [hbi]
          rw [if_neg (by decide : ¬ (!true) = true)]
          exact ih _ hA2 hB2 (nodup_depStep now u txid s hC) ⟨d, hdrest, hW2⟩

theorem txTable_storeSpends (txid : String) (ins outs : List String) (s : Db) :
    (storeSpends txid ins outs s).txTable = s.txTable := by
  unfold storeSpends
  rw [foldl_pres_fn (fun t : Db => t.txTable) (fun acc loc => setUnspent acc loc)
      (fun b a => rfl),
    foldl_pres_fn (fun t : Db => t.txTable) (fun acc loc => setSpend acc loc txid)
      (fun b a => rfl)]

theorem unexec_storeSpends (txid : String) (ins outs : List String) (s : Db) :
    (storeSpends txid ins outs s).unexecuted = s.unexecuted := by
  unfold storeSpends
  rw [foldl_pres_fn (fun t : Db => t.unexecuted) (fun acc loc => setUnspent acc loc)
      (fun b a => rfl),
    foldl_pres_fn (fun t : Db => t.unexecuted) (fun acc loc => setSpend acc loc txid)
      (fun b a => rfl)]

theorem unexec_parseEntryState (txid hex : String) (hasCode : Bool)
    (inputs outputs : List String) (s : Db) :
    (parseEntryState txid hex hasCode inputs outputs s).unexecuted =
    alUpd s.unexecuted txid (fun n => { n with hasCode := some hasCode, downloaded := true }) := by
  unfold parseEntryState
  show alUpd (storeSpends txid inputs outputs _).unexecuted txid _ = _
  rw [unexec_storeSpends]
  rfl

theorem txTable_parseEntryState (txid hex : String) (hasCode : Bool)
    (inputs outputs : List String) (s : Db) :
    (parseEntryState txid hex hasCode inputs outputs s).txTable =
    alUpd (alUpd (alUpd s.txTable txid (fun r => { r with bytes := some hex }))
      txid (fun r => { r with executable := true }))
      txid (fun r => { r with hasCode := hasCode }) := by
  unfold parseEntryState
  show (storeSpends txid inputs outputs _).txTable = _
  rw [txTable_storeSpends]
  rfl

/-- Claim C7: when a declared dep of `storeParsedExecutableTransaction`
has a `tx` row but no node in the unexecuted map and its record shows
`indexed = 0`, the dependent itself is marked execution-failed (its row
ends with `executable = 0`, `executed = 1`, `indexed = 0` and its node
leaves the map) and the dependency loop takes the early return, skipping
the final readiness re-evaluation. -/
theorem claim7_unindexed_dep_fails (rmo : String → Bool) (now : Int) (fuel : Nat)
    (txid hex : String) (hasCode : Bool) (ds inputs outputs : List String) (s : Db)
    (hfuel : 1 ≤ fuel)
    (hnode : (alGet s.unexecuted txid).isSome = true)
    (hrow : (alGet s.txTable txid).isSome = true)
    (hnodup : (s.unexecuted.map Prod.fst).Nodup)
    (hwit : ∃ d ∈ ds, (alGet s.txTable d).isSome = true ∧ alGet s.unexecuted d = none ∧
      indexedOf s d = false) :
    failedMark txid
      (storeParsedExecutableTransaction rmo now fuel txid hex hasCode ds inputs outputs s) ∧
    (parseExecDeps rmo now fuel txid ds
      (parseEntryState txid hex hasCode inputs outputs s)).2 = true := by
  have hueq := unexec_parseEntryState txid hex hasCode inputs outputs s
  have hteq := txTable_parseEntryState txid hex hasCode inputs outputs s
  have hA : (alGet (parseEntryState txid hex hasCode inputs outputs s).unexecuted txid).isSome
      = true := by
    rw [hueq]
    exact alGet_alUpd_isSome _ _ _ _ hnode
  have hB : (alGet (parseEntryState txid hex hasCode inputs outputs s).txTable txid).isSome
      = true := by
    rw [hteq]
    exact alGet_alUpd_isSome _ _ _ _ (alGet_alUpd_isSome _ _ _ _ (alGet_alUpd_isSome _ _ _ _ hrow))
  have hC : ((parseEntryState txid hex hasCode inputs outputs s).unexecuted.map Prod.fst).Nodup := by
    rw [hueq, keys_alUpd]
    exact hnodup
  have hW : ∃ d ∈ ds,
      (alGet (parseEntryState txid hex hasCode inputs outputs s).txTable d).isSome = true ∧
      alGet (parseEntryState txid hex hasCode inputs outputs s).unexecuted d = none ∧
      indexedOf (parseEntryState txid hex hasCode inputs outputs s) d = false := by
    obtain ⟨d, hdmem, hdrow, hdnode, hdind⟩ := hwit
    have hne : txid ≠ d := by
      intro he
      rw [he, hdnode] at hnode
      cases hnode
    have hrowd : alGet (parseEntryState txid hex hasCode inputs outputs s).txTable d =
        alGet s.txTable d := by
      rw [hteq, alGet_alUpd_ne _ _ _ _ hne, alGet_alUpd_ne _ _ _ _ hne,
        alGet_alUpd_ne _ _ _ _ hne]
    refine ⟨d, hdmem, by rw [hrowd]; exact hdrow, ?_, ?_⟩
    · rw [hueq]
      exact alGet_alUpd_none _ _ _ _ hdnode
    · unfold indexedOf
      rw [hrowd]
      exact hdind
  have hmain := parseExecDeps_fail rmo now fuel txid hfuel ds
    (parseEntryState txid hex hasCode inputs outputs s) hA hB hC hW
  obtain ⟨tx0, htx0⟩ := Option.isSome_iff_exists.mp hnode
  unfold storeParsedExecutableTransaction
  rw [htx0]
  dsimp only
  refine ⟨?_, hmain.1⟩
  show failedMark txid
    { finishParsedExec fuel txid
        (parseExecDeps rmo now fuel txid ds
          (parseEntryState txid hex hasCode inputs outputs s)) with
      txDepth := s.txDepth }
  have hfin : finishParsedExec fuel txid
      (parseExecDeps rmo now fuel txid ds (parseEntryState txid hex hasCode inputs outputs s)) =
      (parseExecDeps rmo now fuel txid ds (parseEntryState txid hex hasCode inputs outputs s)).1 := by
    unfold finishParsedExec
    rw [if_pos hmain.1]
  rw [hfin]
  exact hmain.2

/-- Claim C7 witness: the theorem applied to the reachable trace behind
`tD4` (`nn` parsed non-executable, so indexed stays 0 and its node is
gone; `bb` then declares the dep `nn`). -/
theorem claim7_unindexed_dep_fails_witness :
    failedMark "bb" tD4 ∧
    (parseExecDeps rmoF 1001 8 "bb" ["nn"]
      (parseEntryState "bb" "cdef" false [] []
        (addNewTransaction 1001 "bb"
          (storeParsedNonExecutableTransaction 8 "nn" "abcd" [] []
            (addNewTransaction 1000 "nn" db0))))).2 = true :=
  claim7_unindexed_dep_fails rmoF 1001 8 "bb" "cdef" false ["nn"] [] []
    (addNewTransaction 1001 "bb"
      (storeParsedNonExecutableTransaction 8 "nn" "abcd" [] []
        (addNewTransaction 1000 "nn" db0)))
    (by decide) (by decide) (by decide) (by decide) (by decide)
/-! ### Claim 8: the conditional failure cascade -/

theorem alGet_alUpd_isSome_eq {α : Type} (l : List (String × α)) (k : String) (f : α → α)
    (x : String) : (alGet (alUpd l k f) x).isSome = (alGet l x).isSome := by
  by_cases he : k = x
  · subst he
    rw [alGet_alUpd_self]
    cases alGet l k <;> rfl
  · rw [alGet_alUpd_ne _ _ _ _ he]

theorem alGet_alDel_isSome {α : Type} (l : List (String × α)) (k x : String)
    (h : (alGet (alDel l k) x).isSome = true) : (alGet l x).isSome = true := by
  cases hg : alGet l x with
  | some v => rfl
  | none =>
    rw [alGet_alDel_none l k x hg] at h
    cases h

theorem txTable_subCounter (b : Bool) (s : Db) : (subCounter b s).txTable = s.txTable := by
  unfold subCounter
  split <;> rfl

theorem unexec_subCounter (b : Bool) (s : Db) : (subCounter b s).unexecuted = s.unexecuted := by
  unfold subCounter
  split <;> rfl

theorem unexec_notify (ds : List String) (s : Db) :
    (notifyReadyRoots ds s).unexecuted = s.unexecuted := by
  unfold notifyReadyRoots
  refine foldl_pres_fn (fun t : Db => t.unexecuted) _ ?_ _ _
  intro b a
  cases alGet b.unexecuted a with
  | none => rfl
  | some dn =>
    dsimp only
    split <;> rfl

theorem txTable_notify (ds : List String) (s : Db) :
    (notifyReadyRoots ds s).txTable = s.txTable := by
  unfold notifyReadyRoots
  refine foldl_pres_fn (fun t : Db => t.txTable) _ ?_ _ _
  intro b a
  cases alGet b.unexecuted a with
  | none => rfl
  | some dn =>
    dsimp only
    split <;> rfl

theorem txTable_detach (t : String) (ds : List String) (s : Db) :
    (detachFromDownstream t ds s).txTable = s.txTable := by
  unfold detachFromDownstream
  exact foldl_pres_fn (fun x : Db => x.txTable)
    (fun acc d => updNode acc d (fun n => { n with upstream := n.upstream.erase t }))
    (fun b a => rfl) _ _

theorem keys_detach (t : String) (ds : List String) (s : Db) :
    (detachFromDownstream t ds s).unexecuted.map Prod.fst = s.unexecuted.map Prod.fst := by
  unfold detachFromDownstream
  exact foldl_pres_fn (fun x : Db => x.unexecuted.map Prod.fst)
    (fun acc d => updNode acc d (fun n => { n with upstream := n.upstream.erase t }))
    (fun b a => keys_alUpd _ _ _) _ _

theorem isSome_detach (t : String) (ds : List String) (s : Db) (x : String) :
    (alGet (detachFromDownstream t ds s).unexecuted x).isSome =
    (alGet s.unexecuted x).isSome := by
  unfold detachFromDownstream
  exact foldl_pres_fn (fun st : Db => (alGet st.unexecuted x).isSome)
    (fun acc d => updNode acc d (fun n => { n with upstream := n.upstream.erase t }))
    (fun b a => alGet_alUpd_isSome_eq _ _ _ _) _ _

theorem rowCov_of_all (s : Db)
    (h : s.unexecuted.all (fun p => (alGet s.txTable p.1).isSome) = true) : RowCov s := by
  intro x hx
  obtain ⟨v, hv⟩ := Option.isSome_iff_exists.mp hx
  exact List.all_eq_true.mp h (x, v) (alGet_mem _ _ _ hv)

theorem rowCov_core (u : String) (ds : List String) (b : Bool) (t : Db) (h : RowCov t) :
    RowCov (subCounter b
      (delNode
        (detachFromDownstream u ds
          (updTx (updTx (updTx t u (fun r => { r with executable := false }))
            u (fun r => { r with executed := true }))
            u (fun r => { r with indexed := false })))
        u)) := by
  have hupd : RowCov (updTx (updTx (updTx t u (fun r => { r with executable := false }))
      u (fun r => { r with executed := true }))
      u (fun r => { r with indexed := false })) := by
    intro x hx
    show (alGet (alUpd (alUpd (alUpd t.txTable u _) u _) u _) x).isSome = true
    rw [alGet_alUpd_isSome_eq, alGet_alUpd_isSome_eq, alGet_alUpd_isSome_eq]
    exact h x hx
  have hdetach : RowCov (detachFromDownstream u ds
      (updTx (updTx (updTx t u (fun r => { r with executable := false }))
        u (fun r => { r with executed := true }))
        u (fun r => { r with indexed := false }))) := by
    intro x hx
    rw [isSome_detach] at hx
    rw [txTable_detach]
    exact hupd x hx
  intro x hx
  rw [unexec_subCounter] at hx
  rw [txTable_subCounter]
  exact hdetach x (alGet_alDel_isSome _ _ _ hx)

theorem nodup_core (u : String) (ds : List String) (b : Bool) (t : Db)
    (h : (t.unexecuted.map Prod.fst).Nodup) :
    (((subCounter b
      (delNode
        (detachFromDownstream u ds
          (updTx (updTx (updTx t u (fun r => { r with executable := false }))
            u (fun r => { r with executed := true }))
            u (fun r => { r with indexed := false })))
        u)).unexecuted).map Prod.fst).Nodup := by
  rw [unexec_subCounter]
  refine nodup_alDel _ _ ?_
  rw [keys_detach]
  exact h

theorem isSome_core (u : String) (ds : List String) (b : Bool) (t : Db) (x : String)
    (hne : x ≠ u) (h : (alGet t.unexecuted x).isSome = true) :
    (alGet (subCounter b
      (delNode
        (detachFromDownstream u ds
          (updTx (updTx (updTx t u (fun r => { r with executable := false }))
            u (fun r => { r with executed := true }))
            u (fun r => { r with indexed := false })))
        u)).unexecuted x).isSome = true := by
  rw [unexec_subCounter]
  show (alGet (alDel (detachFromDownstream u ds
      (updTx (updTx (updTx t u (fun r => { r with executable := false }))
        u (fun r => { r with executed := true }))
        u (fun r => { r with indexed := false }))).unexecuted u) x).isSome = true
  rw [alGet_alDel_ne _ _ _ (fun he => hne he.symm), isSome_detach]
  exact h

theorem fail_rowCov (rmo : String → Bool) :
    ∀ (fuel : Nat) (u : String) (t : Db),
      RowCov t → RowCov (setTransactionExecutionFailed rmo fuel u t) := by
  intro fuel
  induction fuel with
  | zero => intro u t h; exact h
  | succ fuel ih =>
    intro u t h
    unfold setTransactionExecutionFailed
    cases hget : alGet t.unexecuted u with
    | none => exact h
    | some tx =>
      dsimp only
      show RowCov
          (failTail (setTransactionExecutionFailed rmo fuel) rmo u tx.downstream
            (subCounter tx.queuedForExecution
              (delNode
                (detachFromDownstream u tx.downstream
                  (updTx (updTx (updTx { t with txDepth := t.txDepth + 1 }
                    u (fun r => { r with executable := false }))
                    u (fun r => { r with executed := true }))
                    u (fun r => { r with indexed := false })))
                u)))
      have hsub := rowCov_core u tx.downstream tx.queuedForExecution
        { t with txDepth := t.txDepth + 1 } h
      unfold failTail
      split
      · exact foldl_preserves RowCov _ (fun b a hb => ih a b hb) _ _ hsub
      · intro x hx
        rw [unexec_notify] at hx
        rw [txTable_notify]
        exact hsub x hx

theorem fail_nodup (rmo : String → Bool) :
    ∀ (fuel : Nat) (u : String) (t : Db),
      (t.unexecuted.map Prod.fst).Nodup →
      ((setTransactionExecutionFailed rmo fuel u t).unexecuted.map Prod.fst).Nodup := by
  intro fuel
  induction fuel with
  | zero => intro u t h; exact h
  | succ fuel ih =>
    intro u t h
    unfold setTransactionExecutionFailed
    cases hget : alGet t.unexecuted u with
    | none => exact h
    | some tx =>
      dsimp only
      show (((failTail (setTransactionExecutionFailed rmo fuel) rmo u tx.downstream
          (subCounter tx.queuedForExecution
            (delNode
              (detachFromDownstream u tx.downstream
                (updTx (updTx (updTx { t with txDepth := t.txDepth + 1 }
                  u (fun r => { r with executable := false }))
                  u (fun r => { r with executed := true }))
                  u (fun r => { r with indexed := false })))
              u))).unexecuted).map Prod.fst).Nodup
      have hsub := nodup_core u tx.downstream tx.queuedForExecution
        { t with txDepth := t.txDepth + 1 } h
      unfold failTail
      split
      · exact foldl_preserves (fun st : Db => (st.unexecuted.map Prod.fst).Nodup) _
          (fun b a hb => ih a b hb) _ _ hsub
      · rw [unexec_notify]
        exact hsub

theorem foldFail_deletes_marked (rmo : String → Bool) (f : Nat) (x : String)
    (hind : ∀ (u : String) (t : Db), RowCov t → (t.unexecuted.map Prod.fst).Nodup →
      (alGet t.unexecuted x).isSome = true →
      alGet (setTransactionExecutionFailed rmo f u t).unexecuted x = none →
      failedMark x (setTransactionExecutionFailed rmo f u t)) :
    ∀ (ds : List String) (t : Db), RowCov t → (t.unexecuted.map Prod.fst).Nodup →
      (alGet t.unexecuted x).isSome = true →
      alGet (ds.foldl (fun acc d => setTransactionExecutionFailed rmo f d acc) t).unexecuted x
        = none →
      failedMark x (ds.foldl (fun acc d => setTransactionExecutionFailed rmo f d acc) t) := by
  intro ds
  induction ds with
  | nil =>
    intro t _ _ hx hdel
    rw [List.foldl_nil] at hdel
    rw [hdel] at hx
    cases hx
  | cons a rest ih =>
    intro t hcov hnd hx hdel
    rw [List.foldl_cons] at hdel ⊢
    cases hs1 : (alGet (setTransactionExecutionFailed rmo f a t).unexecuted x).isSome with
    | true => exact ih _ (fail_rowCov rmo f a t hcov) (fail_nodup rmo f a t hnd) hs1 hdel
    | false =>
      have hnone : alGet (setTransactionExecutionFailed rmo f a t).unexecuted x = none := by
        cases hg : alGet (setTransactionExecutionFailed rmo f a t).unexecuted x with
        | none => rfl
        | some v =>
          rw [hg] at hs1
          cases hs1
      have hm1 := hind a t hcov hnd hx hnone
      exact foldl_preserves (failedMark x) _ (fun b d hb => fail_pres rmo x f d b hb) _ _ hm1

theorem fail_deletes_marked (rmo : String → Bool) :
    ∀ (fuel : Nat) (u : String) (t : Db) (x : String), RowCov t →
      (t.unexecuted.map Prod.fst).Nodup →
      (alGet t.unexecuted x).isSome = true →
      alGet (setTransactionExecutionFailed rmo fuel u t).unexecuted x = none →
      failedMark x (setTransactionExecutionFailed rmo fuel u t) := by
  intro fuel
  induction fuel with
  | zero =>
    intro u t x _ _ hx hdel
    have hnone : alGet t.unexecuted x = none := hdel
    rw [hnone] at hx
    cases hx
  | succ fuel ih =>
    intro u t x hcov hnd hx hdel
    by_cases hxu : x = u
    · subst hxu
      obtain ⟨r0, hr0⟩ := Option.isSome_iff_exists.mp (hcov x hx)
      obtain ⟨tx0, htx0⟩ := Option.isSome_iff_exists.mp hx
      exact fail_marks rmo (fuel + 1) x t tx0 r0 (by omega) htx0 hr0 hnd
    · unfold setTransactionExecutionFailed at hdel ⊢
      cases hget : alGet t.unexecuted u with
      | none =>
        rw [hget] at hdel
        dsimp only at hdel ⊢
        rw [hdel] at hx
        cases hx
      | some tx =>
        rw [hget] at hdel
        dsimp only at hdel ⊢
        show failedMark x
            (failTail (setTransactionExecutionFailed rmo fuel) rmo u tx.downstream
              (subCounter tx.queuedForExecution
                (delNode
                  (detachFromDownstream u tx.downstream
                    (updTx (updTx (updTx { t with txDepth := t.txDepth + 1 }
                      u (fun r => { r with executable := false }))
                      u (fun r => { r with executed := true }))
                      u (fun r => { r with indexed := false })))
                  u)))
        replace hdel : alGet
            (failTail (setTransactionExecutionFailed rmo fuel) rmo u tx.downstream
              (subCounter tx.queuedForExecution
                (delNode
                  (detachFromDownstream u tx.downstream
                    (updTx (updTx (updTx { t with txDepth := t.txDepth + 1 }
                      u (fun r => { r with executable := false }))
                      u (fun r => { r with executed := true }))
                      u (fun r => { r with indexed := false })))
                  u))).unexecuted x = none := hdel
        have hcovC := rowCov_core u tx.downstream tx.queuedForExecution
          { t with txDepth := t.txDepth + 1 } hcov
        have hndC := nodup_core u tx.downstream tx.queuedForExecution
          { t with txDepth := t.txDepth + 1 } hnd
        have hxC := isSome_core u tx.downstream tx.queuedForExecution
          { t with txDepth := t.txDepth + 1 } x hxu hx
        revert hdel
        unfold failTail
        split
        · intro hdel
          exact foldFail_deletes_marked rmo fuel x (fun u' t' => ih u' t' x)
            tx.downstream _ hcovC hndC hxC hdel
        · intro hdel
          rw [unexec_notify] at hdel
          rw [hdel] at hxC
          cases hxC

/-- After the cascading fold of `setTransactionExecutionFailed`, every
txid of the folded list that was failed already or still had a node is
marked failed. -/
theorem failCascade_all (rmo : String → Bool) (f : Nat) (hf : 1 ≤ f) :
    ∀ (ds : List String) (t : Db), RowCov t → (t.unexecuted.map Prod.fst).Nodup →
      (∀ d ∈ ds, failedMark d t ∨ (alGet t.unexecuted d).isSome = true) →
      ∀ d ∈ ds, failedMark d
        (ds.foldl (fun acc d' => setTransactionExecutionFailed rmo f d' acc) t) := by
  intro ds
  induction ds with
  | nil =>
    intro t _ _ _ d hd
    cases hd
  | cons a rest ih =>
    intro t hcov hnd hpre d hd
    rw [List.foldl_cons]
    have ht1cov := fail_rowCov rmo f a t hcov
    have ht1nd := fail_nodup rmo f a t hnd
    have hheada : failedMark a (setTransactionExecutionFailed rmo f a t) := by
      cases hpre a (List.mem_cons_self a rest) with
      | inl hm => exact fail_pres rmo a f a t hm
      | inr hs =>
        obtain ⟨tx0, htx0⟩ := Option.isSome_iff_exists.mp hs
        obtain ⟨r0, hr0⟩ := Option.isSome_iff_exists.mp (hcov a hs)
        exact fail_marks rmo f a t tx0 r0 hf htx0 hr0 hnd
    rcases List.mem_cons.mp hd with rfl | hdrest
    · exact foldl_preserves (failedMark d) _
        (fun b d' hb => fail_pres rmo d f d' b hb) _ _ hheada
    · refine ih (setTransactionExecutionFailed rmo f a t) ht1cov ht1nd ?_ d hdrest
      intro d' hd'
      cases hpre d' (List.mem_cons_of_mem a hd') with
      | inl hm => exact Or.inl (fail_pres rmo d' f a t hm)
      | inr hs =>
        cases hs1 : (alGet (setTransactionExecutionFailed rmo f a t).unexecuted d').isSome with
        | true => exact Or.inr rfl
        | false =>
          refine Or.inl (fail_deletes_marked rmo f a t d' hcov hnd hs ?_)
          cases hg : alGet (setTransactionExecutionFailed rmo f a t).unexecuted d' with
          | none => rfl
          | some v =>
            rw [hg] at hs1
            cases hs1

theorem foldl_preserves_mem {α β : Type} (P : β → Prop) (f : β → α → β) :
    ∀ (l : List α), (∀ b a, a ∈ l → P b → P (f b a)) → ∀ b, P b → P (l.foldl f b) := by
  intro l
  induction l with
  | nil => intro _ b hb; exact hb
  | cons a rest ih =>
    intro h b hb
    exact ih (fun b' a' ha' hb' => h b' a' (List.mem_cons_of_mem a ha') hb') _
      (h b a (List.mem_cons_self a rest) hb)

theorem txTable_delNode (s : Db) (k : String) : (delNode s k).txTable = s.txTable := rfl

theorem detach_get (t : String) : ∀ (ds : List String) (s : Db) (d : String),
    ds.Nodup → d ∈ ds →
    alGet (detachFromDownstream t ds s).unexecuted d =
    (alGet s.unexecuted d).map (fun n => { n with upstream := n.upstream.erase t }) := by
  intro ds
  induction ds with
  | nil =>
    intro s d _ hd
    cases hd
  | cons a rest ih =>
    intro s d hnd hd
    rcases List.nodup_cons.mp hnd with ⟨hanotin, hndrest⟩
    unfold detachFromDownstream at ih ⊢
    rw [List.foldl_cons]
    rcases List.mem_cons.mp hd with rfl | hdrest
    · refine foldl_preserves_mem
        (fun st : Db => alGet st.unexecuted d =
          (alGet s.unexecuted d).map (fun n => { n with upstream := n.upstream.erase t }))
        _ rest ?_ _ ?_
      · intro b a' ha' hb
        have hne : a' ≠ d := fun he => hanotin (he ▸ ha')
        show alGet (alUpd b.unexecuted a' _) d = _
        rw [alGet_alUpd_ne _ _ _ _ hne]
        exact hb
      · exact alGet_alUpd_self _ _ _
    · have hane : a ≠ d := fun he => hanotin (he ▸ hdrest)
      rw [ih _ d hndrest hdrest]
      show (alGet (alUpd s.unexecuted a _) d).map _ = _
      rw [alGet_alUpd_ne _ _ _ _ hane]

theorem notify_fires : ∀ (ds : List String) (s : Db) (d : String) (dn : UnexecutedTx),
    d ∈ ds → alGet s.unexecuted d = some dn →
    dn.queuedForExecution = true → dn.upstream.isEmpty = true →
    ∃ e ∈ (notifyReadyRoots ds s).events, e.ev = DbEvent.readyToExecute d := by
  intro ds
  induction ds with
  | nil =>
    intro s d dn hd
    cases hd
  | cons a rest ih =>
    intro s d dn hd hdn hq hup
    unfold notifyReadyRoots at ih ⊢
    rw [List.foldl_cons]
    rcases List.mem_cons.mp hd with rfl | hdrest
    · rw [hdn]
      dsimp only
      rw [hq, hup]
      rw [if_pos (by rfl : (true && true) = true)]
      refine foldl_preserves_mem
        (fun st : Db => ∃ e ∈ st.events, e.ev = DbEvent.readyToExecute d) _ rest ?_ _ ?_
      · intro b a' _ hb
        obtain ⟨e, he, hev⟩ := hb
        cases alGet b.unexecuted a' with
        | none => exact ⟨e, he, hev⟩
        | some w =>
          dsimp only
          split
          · exact ⟨e, List.mem_append_left _ he, hev⟩
          · exact ⟨e, he, hev⟩
      · exact ⟨⟨DbEvent.readyToExecute d, decide (0 < s.txDepth)⟩,
          List.mem_append_right _ (List.mem_singleton.mpr rfl), rfl⟩
    · have hunex : (match alGet s.unexecuted a with
          | some dn2 => if dn2.queuedForExecution && dn2.upstream.isEmpty
              then emitEv s (DbEvent.readyToExecute a) else s
          | none => s).unexecuted = s.unexecuted := by
        cases alGet s.unexecuted a with
        | none => rfl
        | some w =>
          dsimp only
          split <;> rfl
      exact ih _ d dn hdrest (by rw [hunex]; exact hdn) hq hup

theorem classifier_core (rmo : String → Bool) (u : String) (ds : List String) (b : Bool)
    (t : Db) (r0 : TxRecord) (hrow : alGet t.txTable u = some r0) :
    classifierSays rmo
      (subCounter b
        (delNode
          (detachFromDownstream u ds
            (updTx (updTx (updTx t u (fun r => { r with executable := false }))
              u (fun r => { r with executed := true }))
              u (fun r => { r with indexed := false })))
          u)) u = classifierSays rmo t u := by
  have hcol : alGet (subCounter b
      (delNode
        (detachFromDownstream u ds
          (updTx (updTx (updTx t u (fun r => { r with executable := false }))
            u (fun r => { r with executed := true }))
            u (fun r => { r with indexed := false })))
        u)).txTable u =
      some { r0 with executable := false, executed := true, indexed := false } := by
    rw [txTable_subCounter, txTable_delNode, txTable_detach]
    show alGet (alUpd (alUpd (alUpd t.txTable u (fun r => { r with executable := false }))
      u (fun r => { r with executed := true }))
      u (fun r => { r with indexed := false })) u = _
    rw [alGet_alUpd_self, alGet_alUpd_self, alGet_alUpd_self, hrow]
    rfl
  unfold classifierSays getTransactionHex
  rw [hcol, hrow]
  rfl

/-- Claim C8: `setTransactionExecutionFailed` cascades conditionally:
when the stored bytes still classify as a Run code transaction, every
downstream neighbour is recursively marked execution-failed; otherwise
the downstream rows and nodes are untouched and each downstream
neighbour that is queued and loses its last upstream link gets an
`onReadyToExecute` callback. -/
theorem claim8_conditional_cascade (rmo : String → Bool) (fuel : Nat) (txid : String)
    (s : Db) (tx0 : UnexecutedTx) (r0 : TxRecord)
    (hfuel : 2 ≤ fuel)
    (hnode : alGet s.unexecuted txid = some tx0)
    (hrow : alGet s.txTable txid = some r0)
    (hnodup : (s.unexecuted.map Prod.fst).Nodup)
    (hcov : RowCov s)
    (hdown : ∀ d ∈ tx0.downstream, d ≠ txid ∧ (alGet s.unexecuted d).isSome = true)
    (hdns : tx0.downstream.Nodup) :
    (classifierSays rmo s txid = true →
      ∀ d ∈ tx0.downstream,
        failedMark d (setTransactionExecutionFailed rmo fuel txid s)) ∧
    (classifierSays rmo s txid = false →
      (∀ d ∈ tx0.downstream,
        alGet (setTransactionExecutionFailed rmo fuel txid s).txTable d = alGet s.txTable d ∧
        (alGet (setTransactionExecutionFailed rmo fuel txid s).unexecuted d).isSome = true) ∧
      (∀ d ∈ tx0.downstream, ∀ dn, alGet s.unexecuted d = some dn →
        dn.queuedForExecution = true → dn.upstream.erase txid = [] →
        ∃ e ∈ (setTransactionExecutionFailed rmo fuel txid s).events,
          e.ev = DbEvent.readyToExecute d)) := by
  obtain ⟨f, rfl⟩ : ∃ f, fuel = f + 2 := ⟨fuel - 2, by omega⟩
  have hf1 : 1 ≤ f + 1 := by omega
  have hred : setTransactionExecutionFailed rmo (f + 2) txid s =
      { failTail (setTransactionExecutionFailed rmo (f + 1)) rmo txid tx0.downstream
        (subCounter tx0.queuedForExecution
                (delNode
                  (detachFromDownstream txid tx0.downstream
                    (updTx (updTx (updTx { s with txDepth := s.txDepth + 1 }
                      txid (fun r => { r with executable := false }))
                      txid (fun r => { r with executed := true }))
                      txid (fun r => { r with indexed := false })))
                  txid)) with
        txDepth := s.txDepth } := by
    unfold setTransactionExecutionFailed
    rw [hnode]
    rfl
  have hclseq : classifierSays rmo
      (subCounter tx0.queuedForExecution
              (delNode
                (detachFromDownstream txid tx0.downstream
                  (updTx (updTx (updTx { s with txDepth := s.txDepth + 1 }
                    txid (fun r => { r with executable := false }))
                    txid (fun r => { r with executed := true }))
                    txid (fun r => { r with indexed := false })))
                txid)) txid =
      classifierSays rmo s txid := by
    rw [classifier_core rmo txid tx0.downstream tx0.queuedForExecution
      { s with txDepth := s.txDepth + 1 } r0 hrow]
    rfl
  have hcovC : RowCov
      (subCounter tx0.queuedForExecution
              (delNode
                (detachFromDownstream txid tx0.downstream
                  (updTx (updTx (updTx { s with txDepth := s.txDepth + 1 }
                    txid (fun r => { r with executable := false }))
                    txid (fun r => { r with executed := true }))
                    txid (fun r => { r with indexed := false })))
                txid)) :=
    rowCov_core txid tx0.downstream tx0.queuedForExecution
      { s with txDepth := s.txDepth + 1 } hcov
  have hndC : (((subCounter tx0.queuedForExecution
              (delNode
                (detachFromDownstream txid tx0.downstream
                  (updTx (updTx (updTx { s with txDepth := s.txDepth + 1 }
                    txid (fun r => { r with executable := false }))
                    txid (fun r => { r with executed := true }))
                    txid (fun r => { r with indexed := false })))
                txid)).unexecuted).map Prod.fst).Nodup :=
    nodup_core txid tx0.downstream tx0.queuedForExecution
      { s with txDepth := s.txDepth + 1 } hnodup
  constructor
  · intro hcl d hd
    rw [hred]
    show failedMark d
      (failTail (setTransactionExecutionFailed rmo (f + 1)) rmo txid tx0.downstream
        (subCounter tx0.queuedForExecution
                (delNode
                  (detachFromDownstream txid tx0.downstream
                    (updTx (updTx (updTx { s with txDepth := s.txDepth + 1 }
                      txid (fun r => { r with executable := false }))
                      txid (fun r => { r with executed := true }))
                      txid (fun r => { r with indexed := false })))
                  txid)))
    unfold failTail
    rw [hclseq, hcl, if_pos rfl]
    refine failCascade_all rmo (f + 1) hf1 tx0.downstream _ hcovC hndC ?_ d hd
    intro d' hd'
    obtain ⟨hne, hsome⟩ := hdown d' hd'
    exact Or.inr (isSome_core txid tx0.downstream tx0.queuedForExecution
      { s with txDepth := s.txDepth + 1 } d' hne hsome)
  · intro hcl
    constructor
    · intro d hd
      obtain ⟨hne, hsome⟩ := hdown d hd
      rw [hred]
      constructor
      · show alGet
            (failTail (setTransactionExecutionFailed rmo (f + 1)) rmo txid tx0.downstream
              (subCounter tx0.queuedForExecution
                      (delNode
                        (detachFromDownstream txid tx0.downstream
                          (updTx (updTx (updTx { s with txDepth := s.txDepth + 1 }
                            txid (fun r => { r with executable := false }))
                            txid (fun r => { r with executed := true }))
                            txid (fun r => { r with indexed := false })))
                        txid))).txTable d = alGet s.txTable d
        unfold failTail
        rw [hclseq, hcl, if_neg (by simp : ¬ (false = true))]
        rw [txTable_notify, txTable_subCounter, txTable_delNode, txTable_detach]
        show alGet (alUpd (alUpd (alUpd s.txTable txid (fun r => { r with executable := false }))
          txid (fun r => { r with executed := true }))
          txid (fun r => { r with indexed := false })) d = alGet s.txTable d
        rw [alGet_alUpd_ne _ _ _ _ (fun he => hne he.symm),
          alGet_alUpd_ne _ _ _ _ (fun he => hne he.symm),
          alGet_alUpd_ne _ _ _ _ (fun he => hne he.symm)]
      · show (alGet
            (failTail (setTransactionExecutionFailed rmo (f + 1)) rmo txid tx0.downstream
              (subCounter tx0.queuedForExecution
                      (delNode
                        (detachFromDownstream txid tx0.downstream
                          (updTx (updTx (updTx { s with txDepth := s.txDepth + 1 }
                            txid (fun r => { r with executable := false }))
                            txid (fun r => { r with executed := true }))
                            txid (fun r => { r with indexed := false })))
                        txid))).unexecuted d).isSome = true
        unfold failTail
        rw [hclseq, hcl, if_neg (by simp : ¬ (false = true))]
        rw [unexec_notify]
        exact isSome_core txid tx0.downstream tx0.queuedForExecution
          { s with txDepth := s.txDepth + 1 } d hne hsome
    · intro d hd dn hdn hq herase
      obtain ⟨hne, _⟩ := hdown d hd
      rw [hred]
      show ∃ e ∈
          (failTail (setTransactionExecutionFailed rmo (f + 1)) rmo txid tx0.downstream
            (subCounter tx0.queuedForExecution
                    (delNode
                      (detachFromDownstream txid tx0.downstream
                        (updTx (updTx (updTx { s with txDepth := s.txDepth + 1 }
                          txid (fun r => { r with executable := false }))
                          txid (fun r => { r with executed := true }))
                          txid (fun r => { r with indexed := false })))
                      txid))).events,
          e.ev = DbEvent.readyToExecute d
      unfold failTail
      rw [hclseq, hcl, if_neg (by simp : ¬ (false = true))]
      have hgetC : alGet
          (subCounter tx0.queuedForExecution
                  (delNode
                    (detachFromDownstream txid tx0.downstream
                      (updTx (updTx (updTx { s with txDepth := s.txDepth + 1 }
                        txid (fun r => { r with executable := false }))
                        txid (fun r => { r with executed := true }))
                        txid (fun r => { r with indexed := false })))
                    txid)).unexecuted d =
          some { dn with upstream := dn.upstream.erase txid } := by
        rw [unexec_subCounter]
        show alGet (alDel (detachFromDownstream txid tx0.downstream
            (updTx (updTx (updTx { s with txDepth := s.txDepth + 1 }
              txid (fun r => { r with executable := false }))
              txid (fun r => { r with executed := true }))
              txid (fun r => { r with indexed := false }))).unexecuted txid) d = _
        rw [alGet_alDel_ne _ _ _ (fun he => hne he.symm),
          detach_get txid tx0.downstream _ d hdns hd]
        show (alGet s.unexecuted d).map _ = _
        rw [hdn]
        rfl
      refine notify_fires tx0.downstream _ d
        { dn with upstream := dn.upstream.erase txid } hd hgetC hq ?_
      show (dn.upstream.erase txid).isEmpty = true
      rw [herase]
      rfl

/-- Claim C8 witness: the theorem applied to scenario S3 state `tS4`
(`aa` with downstream `bb`, both nodes and rows present). -/
theorem claim8_conditional_cascade_witness :
    (classifierSays rmoF tS4 "aa" = true →
      ∀ d ∈ ["bb"], failedMark d (setTransactionExecutionFailed rmoF 8 "aa" tS4)) ∧
    (classifierSays rmoF tS4 "aa" = false →
      (∀ d ∈ ["bb"],
        alGet (setTransactionExecutionFailed rmoF 8 "aa" tS4).txTable d = alGet tS4.txTable d ∧
        (alGet (setTransactionExecutionFailed rmoF 8 "aa" tS4).unexecuted d).isSome = true) ∧
      (∀ d ∈ ["bb"], ∀ dn, alGet tS4.unexecuted d = some dn →
        dn.queuedForExecution = true → dn.upstream.erase "aa" = [] →
        ∃ e ∈ (setTransactionExecutionFailed rmoF 8 "aa" tS4).events,
          e.ev = DbEvent.readyToExecute d)) :=
  claim8_conditional_cascade rmoF 8 "aa" tS4 _ _ (by decide) rfl rfl (by decide)
    (rowCov_of_all tS4 (by decide)) (by decide) (by decide)
/-! ### Claim 3: the trust upstream walk -/

theorem contains_true_iff (l : List String) (x : String) : l.contains x = true ↔ x ∈ l := by
  simp

theorem trustWalk_acc_mono (s : Db) :
    ∀ (fuel : Nat) (queue visited acc : List String) (x : String),
      x ∈ acc → x ∈ trustWalk s fuel queue visited acc := by
  intro fuel
  induction fuel with
  | zero =>
    intro queue visited acc x hx
    exact hx
  | succ fuel ih =>
    intro queue visited acc x hx
    cases queue with
    | nil => exact hx
    | cons t rest =>
      unfold trustWalk
      split
      · exact ih rest visited acc x hx
      · cases alGet s.unexecuted t with
        | none => exact ih rest (t :: visited) acc x hx
        | some n =>
          dsimp only
          split
          · exact ih (rest ++ n.upstream) (t :: visited) (acc ++ [t]) x
              (List.mem_append_left _ hx)
          · exact ih (rest ++ n.upstream) (t :: visited) acc x hx

theorem trustWalk_sound (s : Db) (t : String) :
    ∀ (fuel : Nat) (queue visited acc : List String) (x : String),
      (∀ q ∈ queue, UpReach s t q) →
      (∀ a ∈ acc, UpReach s t a ∧
        (∃ n, alGet s.unexecuted a = some n ∧ truthy n.hasCode = true) ∧
        s.trustlist.contains a = false) →
      x ∈ trustWalk s fuel queue visited acc →
      UpReach s t x ∧
        (∃ n, alGet s.unexecuted x = some n ∧ truthy n.hasCode = true) ∧
        s.trustlist.contains x = false := by
  intro fuel
  induction fuel with
  | zero =>
    intro queue visited acc x _ hacc hx
    exact hacc x hx
  | succ fuel ih =>
    intro queue visited acc x hq hacc hx
    cases queue with
    | nil => exact hacc x hx
    | cons u rest =>
      rw [trustWalk] at hx
      revert hx
      split
      · intro hx
        exact ih rest visited acc x (fun q hq2 => hq q (List.mem_cons_of_mem u hq2)) hacc hx
      · cases hget : alGet s.unexecuted u with
        | none =>
          intro hx
          exact ih rest (u :: visited) acc x
            (fun q hq2 => hq q (List.mem_cons_of_mem u hq2)) hacc hx
        | some n =>
          dsimp only
          intro hx
          have hqu : UpReach s t u := hq u (List.mem_cons_self u rest)
          refine ih (rest ++ n.upstream) (u :: visited) _ x ?_ ?_ hx
          · intro q hq2
            rcases List.mem_append.mp hq2 with h2 | h2
            · exact hq q (List.mem_cons_of_mem u h2)
            · exact UpReach.step hqu hget h2
          · intro a ha
            revert ha
            split
            · intro ha
              rcases List.mem_append.mp ha with h2 | h2
              · exact hacc a h2
              · rcases List.mem_singleton.mp h2 with rfl
                rename_i hcond
                have hsplit : truthy n.hasCode = true ∧
                    s.trustlist.contains a = false := by
                  constructor
                  · cases hh : truthy n.hasCode with
                    | true => rfl
                    | false =>
                      rw [hh] at hcond
                      simp at hcond
                  · cases hc : s.trustlist.contains a with
                    | false => rfl
                    | true =>
                      rw [hc] at hcond
                      simp at hcond
                exact ⟨hqu, ⟨n, hget, hsplit.1⟩, hsplit.2⟩
            · intro ha
              exact hacc a ha

theorem contains_cons_ne (tp k : String) (vis : List String) (hne : tp ≠ k) :
    (tp :: vis).contains k = vis.contains k := by
  cases hc : vis.contains k with
  | true => exact (contains_true_iff _ _).mpr (List.mem_cons_of_mem tp ((contains_true_iff _ _).mp hc))
  | false =>
    cases hc2 : (tp :: vis).contains k with
    | false => rfl
    | true =>
      rcases List.mem_cons.mp ((contains_true_iff _ _).mp hc2) with he | hm
      · exact absurd he (fun hh => hne hh.symm)
      · have h3 := (contains_true_iff vis k).mpr hm
        rw [hc] at h3
        cases h3

theorem filter_vis_eq (tp : String) (vis : List String) :
    ∀ (l : List (String × UnexecutedTx)), tp ∉ l.map Prod.fst →
      l.filter (fun p => !((tp :: vis).contains p.1)) =
      l.filter (fun p => !(vis.contains p.1)) := by
  intro l
  induction l with
  | nil => intro _; rfl
  | cons a rest ih =>
    intro h
    simp only [List.map_cons, List.mem_cons] at h
    push_neg at h
    rw [List.filter_cons, List.filter_cons, ih h.2, contains_cons_ne tp a.1 vis h.1]

theorem sum_filter_drop (tp : String) (n : UnexecutedTx) (vis : List String)
    (hvis : vis.contains tp = false) :
    ∀ (l : List (String × UnexecutedTx)), (l.map Prod.fst).Nodup → alGet l tp = some n →
      ((l.filter (fun p => !(vis.contains p.1))).map (fun p => p.2.upstream.length)).sum =
      n.upstream.length +
      ((l.filter (fun p => !((tp :: vis).contains p.1))).map
        (fun p => p.2.upstream.length)).sum := by
  intro l
  induction l with
  | nil =>
    intro _ h
    cases h
  | cons a rest ih =>
    intro hnd hget
    simp only [List.map_cons, List.nodup_cons] at hnd
    by_cases he : a.1 = tp
    · have hv : a.2 = n := by
        rw [alGet, if_pos he] at hget
        exact Option.some.inj hget
      rw [List.filter_cons, List.filter_cons]
      have hc1 : (!(vis.contains a.1)) = true := by
        rw [he, hvis]
        rfl
      have hc2 : (!((tp :: vis).contains a.1)) = false := by
        rw [he, (contains_true_iff _ _).mpr (List.mem_cons_self tp vis)]
        rfl
      rw [if_pos hc1, if_neg (by rw [hc2]; exact Bool.false_ne_true)]
      have htp_notin : tp ∉ rest.map Prod.fst := by
        rw [← he]
        exact hnd.1
      rw [filter_vis_eq tp vis rest htp_notin]
      simp only [List.map_cons, List.sum_cons]
      rw [hv]
    · rw [alGet, if_neg he] at hget
      rw [List.filter_cons, List.filter_cons,
        contains_cons_ne tp a.1 vis (fun hh => he hh.symm)]
      cases hc : vis.contains a.1 with
      | true =>
        rw [if_neg (by decide : ¬ ((!true : Bool) = true)),
          if_neg (by decide : ¬ ((!true : Bool) = true))]
        exact ih hnd.2 hget
      | false =>
        rw [if_pos (by decide : ((!false : Bool) = true)),
          if_pos (by decide : ((!false : Bool) = true))]
        simp only [List.map_cons, List.sum_cons]
        rw [ih hnd.2 hget]
        omega

theorem sumUp_drop (s : Db) (tp : String) (n : UnexecutedTx) (vis : List String)
    (hvis : vis.contains tp = false) (hnd : (s.unexecuted.map Prod.fst).Nodup)
    (hget : alGet s.unexecuted tp = some n) :
    sumUp s vis = n.upstream.length + sumUp s (tp :: vis) :=
  sum_filter_drop tp n vis hvis s.unexecuted hnd hget

theorem sumUp_nonkey (s : Db) (tp : String) (vis : List String)
    (hget : alGet s.unexecuted tp = none) :
    sumUp s (tp :: vis) = sumUp s vis := by
  unfold sumUp
  rw [filter_vis_eq tp vis _ (key_notin_of_alGet_none _ _ hget)]

theorem path_head_notin {s : Db} {vis : List String} {q x : String}
    (h : AvoidPath s vis q x) : q ∉ vis := by
  cases h with
  | refl hx => exact hx
  | cons hq _ _ _ => exact hq

theorem avoid_extend_nonode (s : Db) (vis : List String) (tp : String)
    (hget : alGet s.unexecuted tp = none) :
    ∀ (q x : String), AvoidPath s vis q x → x ≠ tp → AvoidPath s (tp :: vis) q x := by
  intro q x h
  induction h with
  | refl hxv =>
    intro hx
    exact AvoidPath.refl (fun hm => (List.mem_cons.mp hm).elim hx hxv)
  | cons hq hg hu hp ih =>
    intro hx
    refine AvoidPath.cons (fun hm => ?_) hg hu (ih hx)
    rcases List.mem_cons.mp hm with he | hm2
    · rw [he, hget] at hg
      cases hg
    · exact hq hm2

theorem avoid_extend_node (s : Db) (vis : List String) (tp : String) (n : UnexecutedTx)
    (hget : alGet s.unexecuted tp = some n) :
    ∀ (q x : String), AvoidPath s vis q x → x ≠ tp →
      AvoidPath s (tp :: vis) q x ∨ ∃ u ∈ n.upstream, AvoidPath s (tp :: vis) u x := by
  intro q x h
  induction h with
  | refl hxv =>
    intro hx
    exact Or.inl (AvoidPath.refl (fun hm => (List.mem_cons.mp hm).elim hx hxv))
  | cons hq hg hu hp ih =>
    intro hx
    rename_i qh nh uh xh
    by_cases hqe : qh = tp
    · subst hqe
      rw [hget] at hg
      injection hg with hg2
      subst hg2
      rcases ih hx with hl | hr
      · exact Or.inr ⟨uh, hu, hl⟩
      · exact Or.inr hr
    · rcases ih hx with hl | hr
      · refine Or.inl (AvoidPath.cons (fun hm => ?_) hg hu hl)
        rcases List.mem_cons.mp hm with he | hm2
        · exact hqe he
        · exact hq hm2
      · exact Or.inr hr

theorem avoid_snoc (s : Db) : ∀ (q v u : String) (nv : UnexecutedTx),
    AvoidPath s [] q v → alGet s.unexecuted v = some nv → u ∈ nv.upstream →
    AvoidPath s [] q u := by
  intro q v u nv h
  induction h with
  | refl _ =>
    intro hg hu
    exact AvoidPath.cons (List.not_mem_nil _) hg hu (AvoidPath.refl (List.not_mem_nil _))
  | cons hq hg2 hu2 hp ih =>
    intro hg hu
    exact AvoidPath.cons hq hg2 hu2 (ih hg hu)

theorem upreach_path (s : Db) (t : String) (tx : UnexecutedTx)
    (hget : alGet s.unexecuted t = some tx) :
    ∀ x, UpReach s t x → ∃ q ∈ tx.upstream, AvoidPath s [] q x := by
  intro x h
  induction h with
  | base hg hu =>
    rw [hget] at hg
    injection hg with he
    subst he
    exact ⟨_, hu, AvoidPath.refl (List.not_mem_nil _)⟩
  | step hr hg hu ih =>
    obtain ⟨q, hq, hpath⟩ := ih
    exact ⟨q, hq, avoid_snoc s q _ _ _ hpath hg hu⟩

/-- BFS completeness: with fuel at least the walk measure, every
code-bearing untrusted node reachable from the queue along unvisited
upstream paths ends up in the returned accumulator. -/
theorem trustWalk_complete (s : Db) (hnd : (s.unexecuted.map Prod.fst).Nodup) :
    ∀ (fuel : Nat) (queue visited acc : List String) (x : String),
      walkMeasure s queue visited ≤ fuel →
      (∃ q ∈ queue, AvoidPath s visited q x) →
      (∃ n, alGet s.unexecuted x = some n ∧ truthy n.hasCode = true) →
      s.trustlist.contains x = false →
      x ∈ trustWalk s fuel queue visited acc := by
  intro fuel
  induction fuel with
  | zero =>
    intro queue visited acc x hm hq _ _
    obtain ⟨q, hqm, _⟩ := hq
    cases queue with
    | nil => cases hqm
    | cons a b =>
      unfold walkMeasure at hm
      rw [List.length_cons] at hm
      omega
  | succ fuel ih =>
    intro queue visited acc x hm hq hx hunx
    obtain ⟨q, hqm, hpath⟩ := hq
    cases queue with
    | nil => cases hqm
    | cons tp rest =>
      unfold trustWalk
      cases hv : visited.contains tp with
      | true =>
        rw [if_pos (rfl : (true : Bool) = true)]
        have hqnv := path_head_notin hpath
        have htpv : tp ∈ visited := (contains_true_iff _ _).mp hv
        have hqt : q ≠ tp := fun he => hqnv (he ▸ htpv)
        have hqrest : q ∈ rest := (List.mem_cons.mp hqm).resolve_left hqt
        refine ih rest visited acc x ?_ ⟨q, hqrest, hpath⟩ hx hunx
        unfold walkMeasure at hm ⊢
        rw [List.length_cons] at hm
        omega
      | false =>
        rw [if_neg (by decide : ¬ ((false : Bool) = true))]
        obtain ⟨nx, hnx, hcode⟩ := hx
        cases hget : alGet s.unexecuted tp with
        | none =>
          have hxtp : x ≠ tp := fun he => by
            rw [he, hget] at hnx
            cases hnx
          have hmeas : walkMeasure s rest (tp :: visited) ≤ fuel := by
            unfold walkMeasure at hm ⊢
            rw [List.length_cons] at hm
            rw [sumUp_nonkey s tp visited hget]
            omega
          rcases List.mem_cons.mp hqm with rfl | hqrest
          · cases hpath with
            | refl hxv => exact absurd rfl hxtp
            | cons hq2 hg2 hu2 hp2 =>
              rw [hget] at hg2
              cases hg2
          · exact ih rest (tp :: visited) acc x hmeas
              ⟨q, hqrest, avoid_extend_nonode s visited tp hget q x hpath hxtp⟩
              ⟨nx, hnx, hcode⟩ hunx
        | some n =>
          dsimp only
          have hmeas : walkMeasure s (rest ++ n.upstream) (tp :: visited) ≤ fuel := by
            unfold walkMeasure at hm ⊢
            rw [List.length_cons] at hm
            rw [sumUp_drop s tp n visited hv hnd hget] at hm
            rw [List.length_append]
            omega
          by_cases hxtp : x = tp
          · subst hxtp
            rw [hget] at hnx
            injection hnx with he
            subst he
            rw [hcode, hunx]
            rw [if_pos (by decide : ((true && !false : Bool) = true))]
            exact trustWalk_acc_mono s fuel _ _ _ x
              (List.mem_append_right _ (List.mem_singleton.mpr rfl))
          · rcases List.mem_cons.mp hqm with rfl | hqrest
            · cases hpath with
              | refl hxv => exact absurd rfl hxtp
              | cons hq2 hg2 hu2 hp2 =>
                rename_i n2 u2
                rw [hget] at hg2
                injection hg2 with he2
                subst he2
                rcases avoid_extend_node s visited q n hget u2 x hp2 hxtp with hl | ⟨u3, hu3, hp3⟩
                · exact ih (rest ++ n.upstream) (q :: visited) _ x hmeas
                    ⟨u2, List.mem_append_right rest hu2, hl⟩ ⟨nx, hnx, hcode⟩ hunx
                · exact ih (rest ++ n.upstream) (q :: visited) _ x hmeas
                    ⟨u3, List.mem_append_right rest hu3, hp3⟩ ⟨nx, hnx, hcode⟩ hunx
            · rcases avoid_extend_node s visited tp n hget q x hpath hxtp with hl | ⟨u3, hu3, hp3⟩
              · exact ih (rest ++ n.upstream) (tp :: visited) _ x hmeas
                  ⟨q, List.mem_append_left _ hqrest, hl⟩ ⟨nx, hnx, hcode⟩ hunx
              · exact ih (rest ++ n.upstream) (tp :: visited) _ x hmeas
                  ⟨u3, List.mem_append_right rest hu3, hp3⟩ ⟨nx, hnx, hcode⟩ hunx

/-- The collected `trusted` list of `trust(txid)` contains exactly the
txid itself and the code-bearing untrusted upstream ancestors. -/
theorem trustedListOf_iff (s : Db) (hnd : (s.unexecuted.map Prod.fst).Nodup)
    (t : String) (tx : UnexecutedTx) (fuel : Nat)
    (hget : alGet s.unexecuted t = some tx)
    (hfuel : walkMeasure s tx.upstream [] ≤ fuel) (x : String) :
    x ∈ trustedListOf fuel t s ↔
      (x = t ∨ (UpReach s t x ∧
        (∃ n, alGet s.unexecuted x = some n ∧ truthy n.hasCode = true) ∧
        s.trustlist.contains x = false)) := by
  unfold trustedListOf
  rw [hget]
  dsimp only
  constructor
  · intro hx
    rcases List.mem_cons.mp hx with rfl | hw
    · exact Or.inl rfl
    · exact Or.inr (trustWalk_sound s t fuel tx.upstream [] [] x
        (fun q hq => UpReach.base hget hq) (fun a ha => absurd ha (List.not_mem_nil a)) hw)
  · intro hx
    rcases hx with rfl | ⟨hreach, hcode, hun⟩
    · exact List.mem_cons_self _ _
    · refine List.mem_cons_of_mem _ ?_
      obtain ⟨q, hq, hpath⟩ := upreach_path s t tx hget x hreach
      exact trustWalk_complete s hnd fuel tx.upstream [] [] x hfuel ⟨q, hq, hpath⟩ hcode hun

theorem foldl_hom {α β γ : Type} (g : β → γ) (f : β → α → β) (f2 : γ → α → γ)
    (h : ∀ b a, g (f b a) = f2 (g b) a) :
    ∀ (l : List α) (b : β), g (List.foldl f b l) = List.foldl f2 (g b) l := by
  intro l
  induction l with
  | nil => intro b; rfl
  | cons a rest ih =>
    intro b
    rw [List.foldl_cons, List.foldl_cons, ih, h]

theorem foldl_id {γ α : Type} : ∀ (l : List α) (c : γ),
    List.foldl (fun l2 _ => l2) c l = c := by
  intro l
  induction l with
  | nil => intro c; rfl
  | cons a rest ih => intro c; rw [List.foldl_cons, ih]

theorem trustlist_checkIfPresent (fuel : Nat) (txid : String) (s : Db) :
    (checkIfPresent fuel txid s).trustlist = s.trustlist := by
  unfold checkIfPresent
  cases alGet s.unexecuted txid with
  | none => rfl
  | some _ => exact trustlist_checkExecutability fuel txid none s

theorem trustApply_trustlist (fuel : Nat) (trusted : List String) (s : Db) :
    (trustApply fuel trusted s).trustlist =
    trusted.foldl (fun l t2 => addUnique l t2) s.trustlist := by
  unfold trustApply
  rw [foldl_hom (fun t : Db => t.trustlist) (fun acc t2 => emitEv acc (DbEvent.trustTx t2))
    (fun l _ => l) (fun b a => rfl)]
  rw [foldl_hom (fun t : Db => t.trustlist) (fun acc t2 => checkIfPresent fuel t2 acc)
    (fun l _ => l) (fun b a => trustlist_checkIfPresent fuel a b)]
  rw [foldl_id, foldl_id]
  show (trusted.foldl (fun (acc : Db) t2 => { acc with trustlist := addUnique acc.trustlist t2 })
      (trusted.foldl (fun (acc : Db) t2 => { acc with trustTable := alSet acc.trustTable t2 true })
        { s with txDepth := s.txDepth + 1 })).trustlist =
      trusted.foldl (fun l t2 => addUnique l t2) s.trustlist
  rw [foldl_hom (fun t : Db => t.trustlist)
    (fun (acc : Db) t2 => { acc with trustlist := addUnique acc.trustlist t2 })
    (fun l t2 => addUnique l t2) (fun b a => rfl)]
  rw [foldl_hom (fun t : Db => t.trustlist)
    (fun (acc : Db) t2 => { acc with trustTable := alSet acc.trustTable t2 true })
    (fun l _ => l) (fun b a => rfl)]
  rw [foldl_id]

theorem mem_addUnique (l : List String) (a x : String) :
    x ∈ addUnique l a ↔ x ∈ l ∨ x = a := by
  unfold addUnique
  split
  · rename_i hc
    constructor
    · exact Or.inl
    · intro h
      rcases h with h | rfl
      · exact h
      · exact (contains_true_iff _ _).mp hc
  · simp [List.mem_append]

theorem mem_addUnique_foldl : ∀ (l : List String) (base : List String) (x : String),
    x ∈ l.foldl (fun acc t2 => addUnique acc t2) base ↔ x ∈ base ∨ x ∈ l := by
  intro l
  induction l with
  | nil =>
    intro base x
    simp
  | cons a rest ih =>
    intro base x
    rw [List.foldl_cons, ih, mem_addUnique, List.mem_cons]
    tauto

/-- Claim C3 (amended): when the trusted txid is not already trusted and
has a node, the resulting trust set is exactly the old set plus the txid
plus every code-bearing currently-untrusted upstream ancestor (BFS
soundness and completeness); and in scenario S3, `trust("bb")` makes the
trust set `["bb", "aa"]` and exactly one `onReadyToExecute("aa")` fires.
For an already-trusted txid the method returns before the walk, so
untrusted code ancestors are not added (see the counterexample). -/
theorem claim3_trust_upstream_amended (fuel : Nat) (t : String) (s : Db)
    (tx : UnexecutedTx)
    (hnd : (s.unexecuted.map Prod.fst).Nodup)
    (hnt : s.trustlist.contains t = false)
    (hget : alGet s.unexecuted t = some tx)
    (hfuel : walkMeasure s tx.upstream [] ≤ fuel) :
    (∀ x, x ∈ (trust fuel t s).trustlist ↔
      (x ∈ s.trustlist ∨ x = t ∨ (UpReach s t x ∧
        (∃ n, alGet s.unexecuted x = some n ∧ truthy n.hasCode = true) ∧
        s.trustlist.contains x = false))) ∧
    tS5.trustlist = ["bb", "aa"] ∧
    tS5.events.countP (fun e => decide (e.ev = DbEvent.readyToExecute "aa")) = 1 := by
  refine ⟨?_, by decide, by decide⟩
  intro x
  unfold trust
  rw [if_neg (by rw [hnt]; exact Bool.false_ne_true)]
  rw [trustApply_trustlist, mem_addUnique_foldl,
    trustedListOf_iff s hnd t tx fuel hget hfuel x]

/-- Claim C3 witness: the theorem applied to scenario S3 (`trust("bb")`
on `tS4`). -/
theorem claim3_trust_upstream_amended_witness :
    (∀ x, x ∈ (trust 8 "bb" tS4).trustlist ↔
      (x ∈ tS4.trustlist ∨ x = "bb" ∨ (UpReach tS4 "bb" x ∧
        (∃ n, alGet tS4.unexecuted x = some n ∧ truthy n.hasCode = true) ∧
        tS4.trustlist.contains x = false))) ∧
    tS5.trustlist = ["bb", "aa"] ∧
    tS5.events.countP (fun e => decide (e.ev = DbEvent.readyToExecute "aa")) = 1 :=
  claim3_trust_upstream_amended 8 "bb" tS4 _ (by decide) (by decide) rfl (by decide)

/-- Claim C3 counterexample: `bb` is already trusted while its upstream
ancestor `aa` carries code and is untrusted; `trust("bb")` returns at the
early guard and does not add `aa`, contradicting the unconditional
"adds every ancestor" sentence. -/
theorem claim3_trust_upstream_counterexample :
    ((alGet tE5.unexecuted "bb").map (fun n => n.upstream.contains "aa")).getD false = true ∧
    ((alGet tE5.unexecuted "aa").map (fun n => truthy n.hasCode)).getD false = true ∧
    tE5.trustlist.contains "aa" = false ∧
    tE5.trustlist.contains "bb" = true ∧
    (trust 8 "bb" tE5).trustlist = ["bb"] := by
  decide
